import Mathlib

/-!
# Verification of the symfit core model engine

Shallow embedding of `symfit/core/fit.py`: the symbolic model representation,
dependency-graph construction and topological evaluation ordering
(`BaseModel._init_from_dict`, `connectivity_mapping`, `ordered_symbols`),
model evaluation (`BaseCallableModel.eval_components`, `__call__`), model
equality and negation (`BaseModel.__eq__`, `__neg__`), the chain-rule
differentiation engine (`vars_as_functions`, `function_dict`,
`jacobian_from_model`, `_partial_diff`, `_partial_subs`) and the ODE bridge
(`ODEModel.__init__`, `__getitem__`, `eval_components`).

Numeric values are carried by exact integers (`ℤ`); the symbolic layer
(sympy expressions restricted to the polynomial operations the models under
verification use) is embedded as an explicit expression tree.  External
libraries used by the source (sympy, numpy's elementwise/boolean-mask
operations, the `toposort` package, `scipy.integrate.odeint`, and the
standard-library `inspect` signature binding) are modelled by explicit
definitions, each marked in its doc string.
-/

namespace Symfit

/-- A symfit symbol: `Variable`, `Parameter` (both `sympy.Symbol` subclasses,
from `symfit/core/argument.py`), or a derivative marker `D(base, wrt...)`
(an unevaluated `sympy.Derivative` used as a dependent-variable key of
Jacobian/Hessian models). -/
inductive Sym where
  | v (name : String)
  | par (name : String)
  | d (base : String) (wrt : List String)
deriving DecidableEq, Repr

/-- Modelled from the spec: the `.name` of a symbol, as used by
`_init_from_dict`'s sort key and by `eval_components`'s keyword dictionaries.
The name of a derivative marker comes from repository code missing from
`src/` (`symfit/core/support.py` / `operators.py`, which make `D` markers
usable as ordinary symbols); the spec requires the markers to be distinct
dependent keys "subject to the same Partition/Signature machinery", which
forces a distinct name per marker. -/
def symName : Sym → String
  | .v n => n
  | .par n => n
  | .d b w => String.intercalate "_" ("D" :: b :: w)

/-- `isinstance(s, Parameter)`. -/
def isParamSym : Sym → Bool
  | .par _ => true
  | _ => false

/-- `isinstance(s, sympy.Derivative)`. -/
def isDerivSym : Sym → Bool
  | .d _ _ => true
  | _ => false

/-- `s.derivative_count` of a derivative marker (0 otherwise, matching the
Python `False` produced by `isinstance(s, Derivative) and s.derivative_count`). -/
def derivCount : Sym → ℕ
  | .d _ w => w.length
  | _ => 0

/-! ### Total comparators (kernel-reducible replacements for string order) -/

/-- Three-way comparison on `ℕ`. -/
def natCmp (a b : ℕ) : Ordering :=
  if a < b then .lt else if b < a then .gt else .eq

/-- Three-way comparison on `Char` via the underlying code point. -/
def charCmp (a b : Char) : Ordering := natCmp a.toNat b.toNat

/-- Lexicographic lift of a comparator to lists. -/
def listCmp (cmp : α → α → Ordering) : List α → List α → Ordering
  | [], [] => .eq
  | [], _ :: _ => .lt
  | _ :: _, [] => .gt
  | a :: as, b :: bs =>
    match cmp a b with
    | .eq => listCmp cmp as bs
    | o => o

/-- Three-way comparison on `String` (lexicographic on characters). -/
def strCmp (a b : String) : Ordering := listCmp charCmp a.data b.data

/-- Injective encoding of a symbol used for the canonical symbol order. -/
def symEnc : Sym → List String
  | .v n => ["v", n]
  | .par n => ["p", n]
  | .d b w => "d" :: b :: w

/-- Canonical total order on symbols (used only to canonicalise monomials;
the source keeps symbols in Python sets, whose iteration order is
unobservable in the properties verified here). -/
def symCmp (a b : Sym) : Ordering := listCmp strCmp (symEnc a) (symEnc b)

/-- `a.name <= b.name`, the sort key `lambda symbol: symbol.name` of
`_init_from_dict` (and `str(symbol)` in `ODEModel.__init__`). -/
def nameLe (a b : Sym) : Prop := strCmp (symName a) (symName b) ≠ Ordering.gt

instance : DecidableRel nameLe := fun a b => by unfold nameLe; infer_instance

/-- The sort key `[isinstance(s, Derivative), s.derivative_count]` of
`BaseModel.ordered_symbols`, as a (non-strict) relation. -/
def derivKeyLe (a b : Sym) : Prop :=
  (isDerivSym a = false ∧ isDerivSym b = true) ∨
    (isDerivSym a = isDerivSym b ∧ derivCount a ≤ derivCount b)

instance : DecidableRel derivKeyLe := fun a b => by unfold derivKeyLe; infer_instance

/-- The sort key `lambda arg: [isinstance(arg, Parameter), str(arg)]` used by
`vars_as_functions` and `CallableModel.numerical_components`: variables
first, then parameters, alphabetically within each group. -/
def varsFirstLe (a b : Sym) : Prop :=
  (isParamSym a = false ∧ isParamSym b = true) ∨
    (isParamSym a = isParamSym b ∧ strCmp (symName a) (symName b) ≠ Ordering.gt)

instance : DecidableRel varsFirstLe := fun a b => by unfold varsFirstLe; infer_instance

/-! ### Expressions -/

mutual
/-- A sympy expression, restricted to the polynomial operations appearing in
the models under verification, plus applied undefined functions
(`sympy.Function('y')(x, a)`, created by `vars_as_functions`) and
unevaluated derivatives of such applications (`sympy.Derivative`). -/
inductive Expr where
  | const (q : ℤ)
  | sym (s : Sym)
  | add (a b : Expr)
  | mul (a b : Expr)
  | pow (base : Expr) (n : ℕ)
  | fapp (f : String) (args : ExprList)
  | deriv (f : String) (args : ExprList) (wrt : List String)
deriving DecidableEq, Repr
/-- Argument lists of function applications (a specialised `List Expr`,
kept mutual so that structural recursion over `Expr` stays primitive). -/
inductive ExprList where
  | nil
  | cons (head : Expr) (tail : ExprList)
deriving DecidableEq, Repr
end

/-- Turn an `ExprList` into an ordinary list. -/
def ExprList.toList : ExprList → List Expr
  | .nil => []
  | .cons a r => a :: r.toList

/-- Build an `ExprList` from an ordinary list. -/
def ExprList.ofList : List Expr → ExprList
  | [] => .nil
  | a :: r => .cons a (ExprList.ofList r)

/-- Models sympy's automatic flattening of `Add`: `x + 0 = x`. -/
def sadd (a b : Expr) : Expr :=
  if a = .const 0 then b else if b = .const 0 then a else .add a b

/-- Models sympy's automatic flattening of `Mul`: `x * 0 = 0`, `x * 1 = x`
(this automatic evaluation is what makes sympy's `diff` drop vanished
chain-rule terms, so it must be part of the embedding). -/
def smulE (a b : Expr) : Expr :=
  if a = .const 0 ∨ b = .const 0 then .const 0
  else if a = .const 1 then b else if b = .const 1 then a else .mul a b

/-- Models sympy's automatic `Pow` evaluation: `x ** 0 = 1`, `x ** 1 = x`. -/
def spowE (a : Expr) (n : ℕ) : Expr :=
  if n = 0 then .const 1 else if n = 1 then a else .pow a n

mutual
/-- Modelled from the spec: `seperate_symbols` lives in
`symfit/core/support.py`, which is missing from `src/`; per the spec it
performs "free-symbol extraction" from an expression.  Derivative markers
count as ordinary symbols (the spec subjects derivative-marker keys to the
same partition machinery).  Returns symbols in syntactic order, possibly
with repetitions (deduplicated by callers). -/
def freeSyms : Expr → List Sym
  | .const _ => []
  | .sym s => [s]
  | .add a b => freeSyms a ++ freeSyms b
  | .mul a b => freeSyms a ++ freeSyms b
  | .pow a _ => freeSyms a
  | .fapp _ args => freeSymsList args
  | .deriv _ args _ => freeSymsList args
/-- Free symbols of an argument list. -/
def freeSymsList : ExprList → List Sym
  | .nil => []
  | .cons a r => freeSyms a ++ freeSymsList r
end

/-- The chain-rule factor sympy produces for one argument slot when
differentiating an applied undefined function: for a plain symbol argument
`s` the factor is the unevaluated `Derivative(f(args), s)`; for a compound
argument sympy produces a `Subs` object, modelled here by a reserved
variable name (this branch is not exercised by the verified models). -/
def slotDeriv (f : String) (args : ExprList) (arg : Expr) : Expr :=
  match arg with
  | .sym s => .deriv f args [symName s]
  | _ => .deriv f args ["_xi_"]

mutual
/-- Models sympy `expr.diff(p)` for the embedded fragment: linearity,
product rule, power rule, and the chain rule through applied undefined
functions, with sympy's automatic `Add`/`Mul`/`Pow` evaluation (so terms
multiplied by a vanished derivative disappear, exactly as in sympy). -/
def exprDiff : Expr → Sym → Expr
  | .const _, _ => .const 0
  | .sym s, p => if s = p then .const 1 else .const 0
  | .add a b, p => sadd (exprDiff a p) (exprDiff b p)
  | .mul a b, p => sadd (smulE (exprDiff a p) b) (smulE a (exprDiff b p))
  | .pow a n, p => smulE (smulE (.const n) (spowE a (n - 1))) (exprDiff a p)
  | .fapp f args, p => diffArgs f args args p
  | .deriv f args w, p => .deriv f args (w ++ [symName p])
/-- Sum of the chain-rule contributions of the argument slots of an applied
undefined function. -/
def diffArgs (f : String) (full : ExprList) : ExprList → Sym → Expr
  | .nil, _ => .const 0
  | .cons a rest, p =>
    sadd (smulE (slotDeriv f full a) (exprDiff a p)) (diffArgs f full rest p)
end

mutual
/-- Models sympy `expr.xreplace(rule)` for a rule mapping plain symbols to
expressions (as used by `function_dict` with `vars_as_functions`): replaces
every matching symbol, without recursing into the replacement. -/
def xreplaceSyms (rule : List (Sym × Expr)) : Expr → Expr
  | .const q => .const q
  | .sym s =>
    match rule.lookup s with
    | some e => e
    | none => .sym s
  | .add a b => .add (xreplaceSyms rule a) (xreplaceSyms rule b)
  | .mul a b => .mul (xreplaceSyms rule a) (xreplaceSyms rule b)
  | .pow a n => .pow (xreplaceSyms rule a) n
  | .fapp f args => .fapp f (xreplaceSymsList rule args)
  | .deriv f args w => .deriv f (xreplaceSymsList rule args) w
/-- `xreplace` over an argument list. -/
def xreplaceSymsList (rule : List (Sym × Expr)) : ExprList → ExprList
  | .nil => .nil
  | .cons a r => .cons (xreplaceSyms rule a) (xreplaceSymsList rule r)
end

/-- Look up the variable whose function form (from `vars_as_functions`)
is the application `f(args)` — the inverse dictionary `functions_as_vars`
of `jacobian_from_model`. -/
def funcTarget (v2f : List (Sym × Expr)) (f : String) (args : ExprList) : Option Sym :=
  (v2f.find? (fun kv => kv.2 = .fapp f args)).map (·.1)

mutual
/-- Models `dfdp.subs(functions_as_vars, evaluate=False)` together with the
rebuild rule `_partial_subs`/`_partial_diff` of `fit.py` (lines 1549–1572):
every function application `y(x, a)` is turned back into the plain variable
`y`, and an unevaluated `Derivative(y(x, a), a)` is rebuilt as the
unevaluated derivative marker `D(y, a)` — never evaluated, which is the
zero-collapse defect the source guards against. -/
def subsFuncVars (v2f : List (Sym × Expr)) : Expr → Expr
  | .const q => .const q
  | .sym s => .sym s
  | .add a b => .add (subsFuncVars v2f a) (subsFuncVars v2f b)
  | .mul a b => .mul (subsFuncVars v2f a) (subsFuncVars v2f b)
  | .pow a n => .pow (subsFuncVars v2f a) n
  | .fapp f args =>
    match funcTarget v2f f args with
    | some var => .sym var
    | none => .fapp f (subsFuncVarsList v2f args)
  | .deriv f args w =>
    match funcTarget v2f f args with
    | some var => .sym (.d (symName var) w)
    | none => .deriv f (subsFuncVarsList v2f args) w
/-- `subs` over an argument list. -/
def subsFuncVarsList (v2f : List (Sym × Expr)) : ExprList → ExprList
  | .nil => .nil
  | .cons a r => .cons (subsFuncVars v2f a) (subsFuncVarsList v2f r)
end

/-- Integer power by structural recursion (kernel-reducible stand-in for
`HPow`, related to it by `zpowNat_eq_pow`). -/
def zpowNat (q : ℤ) : ℕ → ℤ
  | 0 => 1
  | n + 1 => q * zpowNat q n

/-- Models the numeric callable produced by `sympy_to_py` (lambdify): direct
evaluation of the expression tree over an environment keyed by symbol
*names* (the source's keyword dictionaries).  Applied undefined functions
and unevaluated derivatives are not numeric; on them the callable fails. -/
def evalExpr (env : List (String × ℤ)) : Expr → Option ℤ
  | .const q => some q
  | .sym s => env.lookup (symName s)
  | .add a b =>
    match evalExpr env a, evalExpr env b with
    | some x, some y => some (x + y)
    | _, _ => none
  | .mul a b =>
    match evalExpr env a, evalExpr env b with
    | some x, some y => some (x * y)
    | _, _ => none
  | .pow a n =>
    match evalExpr env a with
    | some x => some (zpowNat x n)
    | none => none
  | .fapp _ _ => none
  | .deriv _ _ _ => none


/-! ### Canonical polynomial forms (models `sympy .expand()`)

`BaseModel.__eq__` compares `self[var].expand() == other[var].expand()`;
for the polynomial expressions the embedded models consist of, sympy's
`expand` is a canonical form, embedded here as a coefficient list over
sorted monomials. -/

/-- A monomial: a multiset of symbols, kept sorted by `symCmp`. -/
abbrev Mon := List Sym

/-- A polynomial in expanded form: monomials with integer coefficients. -/
abbrev Poly := List (Mon × ℤ)

/-- Insert a symbol into a sorted monomial. -/
def monInsert (s : Sym) : Mon → Mon
  | [] => [s]
  | b :: r =>
    match symCmp s b with
    | .gt => b :: monInsert s r
    | _ => s :: b :: r

/-- Product of two monomials (merge of sorted symbol lists). -/
def monMul (p q : Mon) : Mon := p.foldr monInsert q

/-- Lexicographic order on monomials. -/
def monCmp (p q : Mon) : Ordering := listCmp symCmp p q

/-- Add one term into an expanded polynomial, combining equal monomials and
dropping a cancelled coefficient. -/
def polyInsert (m : Mon) (c : ℤ) : Poly → Poly
  | [] => [(m, c)]
  | (m2, c2) :: q =>
    match monCmp m m2 with
    | .lt => (m, c) :: (m2, c2) :: q
    | .gt => (m2, c2) :: polyInsert m c q
    | .eq => if c + c2 = 0 then q else (m, c + c2) :: q

/-- Coefficient of a monomial in a polynomial (summing repetitions). -/
def coeffOf (m : Mon) : Poly → ℤ
  | [] => 0
  | (m2, c) :: q => (if m = m2 then c else 0) + coeffOf m q

/-- Sum of two expanded polynomials. -/
def polyAdd (p q : Poly) : Poly := p.foldr (fun mc acc => polyInsert mc.1 mc.2 acc) q

/-- Negation of an expanded polynomial. -/
def polyNeg (p : Poly) : Poly := p.map (fun mc => (mc.1, -mc.2))

/-- Product of a single term with a polynomial. -/
def polyMulTerm (m : Mon) (c : ℤ) (q : Poly) : Poly :=
  q.foldr (fun mc acc => polyInsert (monMul m mc.1) (c * mc.2) acc) []

/-- Product of two expanded polynomials. -/
def polyMul (p q : Poly) : Poly :=
  p.foldr (fun mc acc => polyAdd (polyMulTerm mc.1 mc.2 q) acc) []

/-- Power of an expanded polynomial. -/
def polyPow (p : Poly) : ℕ → Poly
  | 0 => [([], 1)]
  | n + 1 => polyMul p (polyPow p n)

/-- Models sympy `expr.expand()` on the polynomial fragment: the canonical
expanded form.  Applied undefined functions and unevaluated derivatives are
internal artifacts of the differentiation engine and never occur in the
model expressions compared by `BaseModel.__eq__`; they are mapped to an
opaque unit placeholder. -/
def expand : Expr → Poly
  | .const q => if q = 0 then [] else [([], q)]
  | .sym s => [([s], 1)]
  | .add a b => polyAdd (expand a) (expand b)
  | .mul a b => polyMul (expand a) (expand b)
  | .pow a n => polyPow (expand a) n
  | .fapp _ _ => [([], 1)]
  | .deriv _ _ _ => [([], 1)]

/-- A sorted monomial. -/
def MonSorted (m : Mon) : Prop := List.Pairwise (fun a b => symCmp a b ≠ .gt) m

/-- Well-formed expanded polynomial: monomials strictly increasing, all
coefficients nonzero, all monomials sorted. -/
def NormP (p : Poly) : Prop :=
  List.Pairwise (fun x y => monCmp x.1 y.1 = .lt) p ∧
    ∀ mc ∈ p, mc.2 ≠ 0 ∧ MonSorted mc.1

/-- The spec's notion of algebraic equivalence of two expressions: their
difference reduces (expands) to zero. -/
def algEquiv (e1 e2 : Expr) : Prop := polyAdd (expand e1) (polyNeg (expand e2)) = []

instance : DecidablePred fun ee : Expr × Expr => algEquiv ee.1 ee.2 :=
  fun ee => by unfold algEquiv; infer_instance

/-! ### Model dictionaries -/

/-- `OrderedDict(sorted(model_dict.items(), key=lambda i: i[0].name))`:
the canonical ordering of a model dictionary in `_init_from_dict`. -/
def sortKV (d : List (Sym × Expr)) : List (Sym × Expr) :=
  List.insertionSort (fun a b => nameLe a.1 b.1) d

/-- Embeds `BaseModel.__eq__` (fit.py lines 128–148): equal lengths, then
pairwise over the (sorted) dictionaries: sympy equality of the dependent
variables and sympy equality of the `expand()`ed expressions. -/
def modelEq (m1 m2 : List (Sym × Expr)) : Bool :=
  if m1.length ≠ m2.length then false
  else (m1.zip m2).all fun pp =>
    decide (pp.1.1 = pp.2.1) && decide (expand pp.1.2 = expand pp.2.2)

/-- `new_model_dict[key] *= -1`: one component of `BaseModel.__neg__`. -/
def negComponent (kv : Sym × Expr) : Sym × Expr := (kv.1, .mul kv.2 (.const (-1)))

/-- Embeds `BaseModel.__neg__` (fit.py lines 150–158) followed by the
re-initialisation `self.__class__(new_model_dict)` performs on the new
dictionary: every component is multiplied by `-1` (`expr *= -1`) and the
dictionary is re-sorted; the input dictionary is left untouched. -/
def negModelDict (d : List (Sym × Expr)) : List (Sym × Expr) :=
  sortKV (d.map negComponent)


/-! ### Dependency graph and topological layering -/

/-- `BaseModel.connectivity_mapping` (fit.py lines 230–242): for every
`(var, expr)` item of the model dictionary, the set of free symbols of
`expr` (variables and parameters on the same footing). -/
def connectivity_mapping (d : List (Sym × Expr)) : List (Sym × List Sym) :=
  d.map fun kv => (kv.1, (freeSyms kv.2).dedup)

/-- Errors of the embedded `toposort` library: the only failure of
`toposort` is its `CircularDependencyError` (named `CyclicDependencyError`
by the spec). -/
inductive TopoErr where
  | cyclic
deriving DecidableEq, Repr

/-- Dependencies that are not keys (independent symbols): the `toposort`
library treats them as extra items with no dependencies. -/
def graphNormalize (g : List (Sym × List Sym)) : List (Sym × List Sym) :=
  g ++ (((g.map (·.2)).flatten.dedup.filter fun s => decide (s ∉ g.map (·.1))).map
    fun s => (s, ([] : List Sym)))

/-- One Kahn-style round structure of the `toposort` library, fuelled so the
recursion is structural: emit every pending item all of whose dependencies
are already placed; if none is ready while items remain, the dependency
graph is cyclic. -/
def kahnF : ℕ → List (Sym × List Sym) → List Sym → Except TopoErr (List (List Sym))
  | 0, _, _ => .error .cyclic
  | _ + 1, [], _ => .ok []
  | n + 1, kv :: pending, placed =>
    let all := kv :: pending
    let ready := all.filter fun x => x.2.all fun dep => decide (dep ∈ placed)
    if ready.isEmpty then .error .cyclic
    else
      match kahnF n (all.filter fun x => ! x.2.all fun dep => decide (dep ∈ placed))
          (placed ++ ready.map (·.1)) with
      | .error e => .error e
      | .ok rest => .ok (ready.map (·.1) :: rest)

/-- Models the external `toposort` library (`list(toposort(mapping))`): the
layers of the dependency graph, bottom (no dependencies) first.  The fuel
`length + 1` suffices because every successful round removes at least one
pending item. -/
def toposort (g : List (Sym × List Sym)) : Except TopoErr (List (List Sym)) :=
  kahnF ((graphNormalize g).length + 1) (graphNormalize g) []

/-- `BaseModel.ordered_symbols` (fit.py lines 244–259): the topological
layers flattened, each layer sorted by
`[isinstance(s, Derivative), s.derivative_count]`. -/
def ordered_symbols (layers : List (List Sym)) : List Sym :=
  (layers.map (List.insertionSort derivKeyLe)).flatten

/-! ### Model construction and evaluation -/

/-- Errors raised while constructing a model. -/
inductive ModelError where
  /-- The spec's `CyclicDependencyError`, raised by `toposort` inside
  `_init_from_dict`. -/
  | cyclic
  /-- `ordered.pop` on too few topological layers (degenerate specs). -/
  | degenerate
  /-- The `ModelError` of `ODEModel.__init__`. -/
  | modelError
deriving DecidableEq, Repr

/-- The state `_init_from_dict` (fit.py lines 160–189) leaves on a model,
together with the memoised `connectivity_mapping` and topological layers it
is derived from. -/
structure ModelState where
  model_dict : List (Sym × Expr)
  connectivity : List (Sym × List Sym)
  layers : List (List Sym)
  dependent_vars : List Sym
  interdependent_vars : List Sym
  params : List Sym
  independent_vars : List Sym
deriving DecidableEq, Repr

/-- Sort a list of symbols by name (`sorted(..., key=sort_func)`). -/
def sortSyms (l : List Sym) : List Sym := List.insertionSort nameLe l

/-- Embeds `BaseModel._init_from_dict` (fit.py lines 160–189): sort the
dictionary by the names of the dependent variables, topologically sort the
connectivity mapping, split the layers into independent (bottom),
dependent (top) and interdependent (middle) symbols, and separate the
parameters from the independent variables.  A cyclic graph raises
(`CyclicDependencyError`); a spec with fewer than two layers makes
`ordered.pop` fail. -/
def initFromDict (spec : List (Sym × Expr)) : Except ModelError ModelState :=
  let md := sortKV spec
  let conn := connectivity_mapping md
  match toposort conn with
  | .error _ => .error .cyclic
  | .ok layers =>
    match layers with
    | [] => .error .degenerate
    | l0 :: rest =>
      if h : rest = [] then .error .degenerate
      else
        let independent := sortSyms l0
        let dependent := sortSyms (rest.getLast h)
        let inter := sortSyms rest.dropLast.flatten
        .ok {
          model_dict := md
          connectivity := conn
          layers := layers
          dependent_vars := dependent
          interdependent_vars := inter
          params := independent.filter fun s => isParamSym s
          independent_vars := independent.filter fun s =>
            decide (isParamSym s = false ∧ s ∉ md.map (·.1)) }

/-- One parameter of the call signature built by
`BaseCallableModel._make_signature` (fit.py lines 467–479): an
`inspect.Parameter` with a name and an optional default.  The source passes
no `default=`, so every parameter it builds is required. -/
structure SigParam where
  name : String
  default : Option ℤ
deriving DecidableEq, Repr

/-- `BaseCallableModel._make_signature`: one positional-or-keyword
parameter per independent variable and per model parameter, in that order. -/
def makeSignature (m : ModelState) : List SigParam :=
  (m.independent_vars ++ m.params).map fun s => { name := symName s, default := none }

/-- The spec's `BindingError`: the `TypeError` raised by
`inspect.Signature.bind` when call arguments do not match the signature. -/
inductive BindingError where
  | tooManyPositional
  | unexpectedKeyword
  | multipleValues
  | missingArgument
deriving DecidableEq, Repr

/-- Models `self.__signature__.bind(*args, **kwargs)` from the standard
`inspect` library: positional arguments fill the signature in order, then
keyword arguments match by name; surplus positionals, unknown or duplicated
keywords, and any uncovered parameter without a default raise. -/
def bindArgs (sig : List SigParam) (args : List ℤ) (kwargs : List (String × ℤ)) :
    Except BindingError (List (String × ℤ)) :=
  if args.length > sig.length then .error .tooManyPositional
  else
    let positional := (sig.zip args).map fun pa => (pa.1.name, pa.2)
    let names := sig.map (·.name)
    if kwargs.any (fun kv => decide (kv.1 ∉ names)) then .error .unexpectedKeyword
    else if kwargs.any (fun kv => positional.any fun pv => decide (pv.1 = kv.1)) then
      .error .multipleValues
    else
      let bound := positional ++ kwargs
      if sig.any (fun sp => decide (sp.default = none ∧ sp.name ∉ bound.map (·.1))) then
        .error .missingArgument
      else .ok bound

/-- `{d.name: kwargs[d.name] for d in dependencies}`: the environment a
compiled component is called with; fails (Python `KeyError`) if a
dependency has no value yet. -/
def buildEnv (kwargs : List (String × ℤ)) : List Sym → Option (List (String × ℤ))
  | [] => some []
  | s :: rest =>
    match kwargs.lookup (symName s), buildEnv kwargs rest with
    | some v, some env => some ((symName s, v) :: env)
    | _, _ => none

/-- The evaluation loop of `BaseCallableModel.eval_components` (fit.py
lines 437–453): walk the symbols in topological order; every symbol whose
name is not yet bound is computed by its compiled component from the values
of its direct dependencies and added to the keyword dictionary. -/
def evalLoop (conn : List (Sym × List Sym)) (components : List (Sym × Expr)) :
    List Sym → List (String × ℤ) → Option (List (String × ℤ))
  | [], kwargs => some kwargs
  | s :: rest, kwargs =>
    match kwargs.lookup (symName s) with
    | some _ => evalLoop conn components rest kwargs
    | none =>
      match conn.lookup s, components.lookup s with
      | some deps, some expr =>
        match buildEnv kwargs deps with
        | some env =>
          match evalExpr env expr with
          | some val => evalLoop conn components rest (kwargs ++ [(symName s, val)])
          | none => none
        | none => none
      | _, _ => none

/-- Errors of a model call. -/
inductive CallError where
  | binding (e : BindingError)
  | evaluation
deriving DecidableEq, Repr

/-- Embeds `BaseCallableModel.eval_components` followed by `__call__`
(fit.py lines 437–453 and 481–495): bind the arguments against the
signature, run the topological evaluation loop, and return one value per
model-dictionary key (the `Ans` namedtuple, as a keyed association list). -/
def modelCall (m : ModelState) (args : List ℤ) (kwargs : List (String × ℤ)) :
    Except CallError (List (Sym × ℤ)) :=
  match bindArgs (makeSignature m) args kwargs with
  | .error e => .error (.binding e)
  | .ok bound =>
    match evalLoop m.connectivity m.model_dict (ordered_symbols m.layers) bound with
    | none => .error .evaluation
    | some kw =>
      match m.model_dict.mapM fun kv => (kw.lookup (symName kv.1)).map ((kv.1, ·)) with
      | some res => .ok res
      | none => .error .evaluation

/-! ### The differentiation engine -/

/-- `BaseModel.function_dict` entry: dependent variable, its function form,
and its expression with all variables replaced by their function forms. -/
structure FuncEntry where
  var : Sym
  funcForm : Expr
  expr : Expr
deriving DecidableEq, Repr

/-- Worker for `vars_as_functions`: fold over the topologically ordered
symbols, accumulating the function forms. -/
def varsAsFunctionsGo (conn : List (Sym × List Sym)) :
    List Sym → List (Sym × Expr) → List (Sym × Expr)
  | [], acc => acc
  | s :: rest, acc =>
    match conn.lookup s with
    | none => varsAsFunctionsGo conn rest acc
    | some deps =>
      let depsSorted := List.insertionSort varsFirstLe deps
      let depExprs := depsSorted.map fun ds =>
        match acc.lookup ds with
        | some f => f
        | none => Expr.sym ds
      varsAsFunctionsGo conn rest (acc ++ [(s, .fapp (symName s) (ExprList.ofList depExprs))])

/-- `BaseModel.vars_as_functions` (fit.py lines 191–215). -/
def varsAsFunctions (m : ModelState) : List (Sym × Expr) :=
  varsAsFunctionsGo m.connectivity (ordered_symbols m.layers) []

/-- `BaseModel.function_dict` (fit.py lines 217–228):
`self.model_dict[var].xreplace(self.vars_as_functions)` for every function
form, in evaluation order. -/
def functionDict (m : ModelState) (v2f : List (Sym × Expr)) : List FuncEntry :=
  v2f.map fun kv =>
    { var := kv.1
      funcForm := kv.2
      expr := xreplaceSyms v2f ((m.model_dict.lookup kv.1).getD (.const 0)) }

/-- Embeds `jacobian_from_model(model)` (fit.py lines 1574–1612, in its
`as_functions=False` form; the `True` branch is used only by
`hessian_from_model`): for every function-form component and every
parameter, differentiate the function-form expression, substitute the
function forms back to plain symbols with the safe derivative rebuild
(`_partial_subs`), key the result by the derivative marker `D(var, param)`,
add the original components, and build a `CallableModel` from the result. -/
def jacobian_from_model (m : ModelState) : Except ModelError ModelState :=
  let v2f := varsAsFunctions m
  let fdict := functionDict m v2f
  let jacDeriv := fdict.flatMap fun fe =>
    m.params.map fun p =>
      ((Sym.d (symName fe.var) [symName p] : Sym),
        subsFuncVars v2f (exprDiff fe.expr p))
  let jacOrig := m.model_dict.map fun kv => (kv.1, subsFuncVars v2f kv.2)
  initFromDict (jacDeriv ++ jacOrig)

/-- The full pipeline behind `GradientModel.eval_jacobian` (fit.py lines
646–648 and 668–686) for one component: build the Jacobian model of the
model of `spec`, call it with the same arguments as the model itself, and
read off the evaluated component keyed by the derivative marker
`D(var, param)`. -/
def evalJacobianEntry (spec : List (Sym × Expr)) (var p : String)
    (args : List ℤ) : Option ℤ :=
  match initFromDict spec with
  | .error _ => none
  | .ok m =>
    match jacobian_from_model m with
    | .error _ => none
    | .ok jm =>
      match modelCall jm args [] with
      | .error _ => none
      | .ok res => res.lookup (Sym.d var [p])

/-! ### The ODE bridge -/

/-- A key of an ODE model dictionary: the derivative `D(base, *variables)`
(e.g. `D(y, x)`), with `base` the dependent variable (the source computes
it as `list(d.free_symbols - set(d.variables))[0]`). -/
structure DKey where
  base : Sym
  wrt : List Sym
deriving DecidableEq, Repr

/-- The state `ODEModel.__init__` (fit.py lines 1322–1377) leaves on an
ODE model. -/
structure ODEState where
  model_dict : List (DKey × Expr)
  initial : List (Sym × ℤ)
  dependent_vars : List Sym
  independent_vars : List Sym
  params : List Sym
deriving DecidableEq, Repr

/-- Embeds `ODEModel.__init__` (fit.py lines 1322–1377): extract the
dependent variables (one per derivative key), the sorted distinct
independent variables (`d.variables[0]` of every key), raise `ModelError`
when `not len(self.independent_vars)`, sort the dictionary by dependent
variable, and collect the parameters of the right-hand sides. -/
def odeInit (model_dict : List (DKey × Expr)) (initial : List (Sym × ℤ)) :
    Except ModelError ODEState :=
  let dependent := sortSyms (model_dict.map fun kv => kv.1.base)
  let independent := sortSyms (model_dict.filterMap fun kv => kv.1.wrt.head?).dedup
  if independent.length = 0 then .error .modelError
  else
    .ok {
      model_dict := List.insertionSort (fun a b => nameLe a.1.base b.1.base) model_dict
      initial := initial
      dependent_vars := dependent
      independent_vars := independent
      params := sortSyms ((model_dict.map fun kv =>
        (freeSyms kv.2).filter fun s => isParamSym s).flatten).dedup }

/-- Embeds `ODEModel.__getitem__` (fit.py lines 1396–1406): scan the model
dictionary for the key whose dependent variable is the requested one and
return its right-hand side; the loop falls through — returning Python's
`None` — for any other symbol. -/
def odeGetItem (st : ODEState) (v : Sym) : Option Expr :=
  (st.model_dict.find? fun kv => v = kv.1.base).map (·.2)

/-- Models `scipy.integrate.odeint` on the one-dimensional system
`dy/dt = a` with state `y0` at the first requested point `ts[0]` (odeint
integrates starting from `ts[0]`): the exact solution operator
`y(t) = y0 + a * (t - ts[0])`, one value per requested point. -/
def odeintLinear (a y0 : ℤ) (ts : List ℤ) : List ℤ :=
  match ts with
  | [] => []
  | t0 :: _ => ts.map fun t => y0 + a * (t - t0)

/-- Embeds `ODEModel.eval_components` (fit.py lines 1457–1527) for the
one-component model `D(y, x) = a` with initial condition `y(t0) = y0`,
with the integrator modelled exactly by `odeintLinear`: split the requested
time points at the initial time into a forward branch (`t >= t0`) and a
reversed backward branch, always starting at `t0` (prepending it when it
was not requested), integrate both branches, rejoin
(`ans_smaller[1:][::-1]` before `ans_bigger`), and drop the rows at the
initial time when it was not requested (`ans[t_total != t_initial]`). -/
def odeEvalComponents (a t0 y0 : ℤ) (t_like : List ℤ) : List ℤ :=
  let t_bigger :=
    if t0 ∈ t_like then t_like.filter (fun t => t0 ≤ t)
    else t0 :: t_like.filter fun t => t0 < t
  let t_smaller :=
    if t0 ∈ t_like then (t_like.filter fun t => t ≤ t0).reverse
    else t0 :: (t_like.filter fun t => t < t0).reverse
  let t_total := t_smaller.reverse.dropLast ++ t_bigger
  let ans_bigger := odeintLinear a y0 t_bigger
  let ans_smaller := odeintLinear a y0 t_smaller
  let ans := (ans_smaller.drop 1).reverse ++ ans_bigger
  if t0 ∈ t_like then ans
  else ((t_total.zip ans).filter fun ty => decide (¬ ty.1 = t0)).map (·.2)

/-! ### Dependency paths (for the cycle claims) -/

/-- The variable `x`. -/
def xV : Sym := .v "x"

/-- The variable `y`. -/
def yV : Sym := .v "y"

/-- The variable `z`. -/
def zV : Sym := .v "z"

/-- The parameter `a`. -/
def aP : Sym := .par "a"

/-- The chain-rule model of the spec: `{y: a * x, z: y**2 + a}`. -/
def chainSpec : List (Sym × Expr) :=
  [(yV, .mul (.sym aP) (.sym xV)),
   (zV, .add (.pow (.sym yV) 2) (.sym aP))]

/-- A two-stage composition `{y: f(x), z: g(y)}` with `f(x) = x * x + 1`
and `g(y) = y * y`. -/
def twoStageSpec : List (Sym × Expr) :=
  [(yV, .add (.mul (.sym xV) (.sym xV)) (.const 1)),
   (zV, .mul (.sym yV) (.sym yV))]

/-- `x * (x + 1)`: one of two structurally different but algebraically
equal expressions. -/
def exprFactored : Expr := .mul (.sym xV) (.add (.sym xV) (.const 1))

/-- `x * x + x`, the expanded counterpart of `exprFactored`. -/
def exprExpanded : Expr := .add (.mul (.sym xV) (.sym xV)) (.sym xV)

/-- An ODE specification with two distinct independent variables:
`{D(y, t): a, D(z, s): b}`. -/
def twoIndepODE : List (DKey × Expr) :=
  [(⟨yV, [.v "t"]⟩, .sym (.par "a")), (⟨zV, [.v "s"]⟩, .sym (.par "b"))]

/-- Initial conditions for `twoIndepODE`: `{t: 0, s: 0, y: 1, z: 1}`. -/
def twoIndepInitial : List (Sym × ℤ) :=
  [(.v "t", 0), (.v "s", 0), (yV, 1), (zV, 1)]


/-! ## Comparator lemmas -/

theorem natCmp_eq_iff {a b : ℕ} : natCmp a b = .eq ↔ a = b := by
  unfold natCmp
  split_ifs <;> constructor <;> intro h <;> first | omega | simp_all

theorem natCmp_gt_iff {a b : ℕ} : natCmp a b = .gt ↔ natCmp b a = .lt := by
  unfold natCmp
  split_ifs <;> constructor <;> intro h <;> first | rfl | omega | simp_all

theorem natCmp_lt_trans {a b c : ℕ} (h1 : natCmp a b = .lt) (h2 : natCmp b c = .lt) :
    natCmp a c = .lt := by
  unfold natCmp at *
  split_ifs at * <;> first | rfl | omega | simp_all

theorem charCmp_eq_iff {a b : Char} : charCmp a b = .eq ↔ a = b := by
  unfold charCmp
  rw [natCmp_eq_iff]
  constructor
  · intro h
    exact Char.eq_of_val_eq (UInt32.eq_of_toBitVec_eq (BitVec.eq_of_toNat_eq h))
  · intro h
    rw [h]

theorem charCmp_gt_iff {a b : Char} : charCmp a b = .gt ↔ charCmp b a = .lt :=
  natCmp_gt_iff

theorem charCmp_lt_trans {a b c : Char} :
    charCmp a b = .lt → charCmp b c = .lt → charCmp a c = .lt :=
  natCmp_lt_trans

theorem listCmp_eq_iff {α : Type} {cmp : α → α → Ordering}
    (hbase : ∀ a b, cmp a b = .eq ↔ a = b) :
    ∀ l1 l2 : List α, listCmp cmp l1 l2 = .eq ↔ l1 = l2
  | [], [] => by simp [listCmp]
  | [], _ :: _ => by simp [listCmp]
  | _ :: _, [] => by simp [listCmp]
  | a :: as, b :: bs => by
    simp only [listCmp]
    cases hab : cmp a b with
    | eq =>
      obtain rfl := (hbase a b).mp hab
      simp [listCmp_eq_iff hbase as bs]
    | lt =>
      constructor
      · intro h; exact absurd h (by simp)
      · rintro ⟨rfl, rfl⟩
        rw [(hbase a a).mpr rfl] at hab
        cases hab
    | gt =>
      constructor
      · intro h; exact absurd h (by simp)
      · rintro ⟨rfl, rfl⟩
        rw [(hbase a a).mpr rfl] at hab
        cases hab

theorem listCmp_gt_iff {α : Type} {cmp : α → α → Ordering}
    (hbase_eq : ∀ a b, cmp a b = .eq ↔ a = b)
    (hbase : ∀ a b, cmp a b = .gt ↔ cmp b a = .lt) :
    ∀ l1 l2 : List α, listCmp cmp l1 l2 = .gt ↔ listCmp cmp l2 l1 = .lt
  | [], [] => by simp [listCmp]
  | [], _ :: _ => by simp [listCmp]
  | _ :: _, [] => by simp [listCmp]
  | a :: as, b :: bs => by
    simp only [listCmp]
    cases hab : cmp a b with
    | eq =>
      obtain rfl := (hbase_eq a b).mp hab
      rw [hab]
      exact listCmp_gt_iff hbase_eq hbase as bs
    | lt =>
      cases hba : cmp b a with
      | eq =>
        obtain rfl := (hbase_eq b a).mp hba
        rw [hab] at hba
        cases hba
      | lt =>
        have : cmp a b = .gt := (hbase a b).mpr hba
        rw [this] at hab
        cases hab
      | gt => simp
    | gt =>
      rw [(hbase a b).mp hab]
      simp

theorem listCmp_lt_trans {α : Type} {cmp : α → α → Ordering}
    (hbase_eq : ∀ a b, cmp a b = .eq ↔ a = b)
    (hbase_trans : ∀ {a b c}, cmp a b = .lt → cmp b c = .lt → cmp a c = .lt) :
    ∀ l1 l2 l3 : List α, listCmp cmp l1 l2 = .lt → listCmp cmp l2 l3 = .lt →
      listCmp cmp l1 l3 = .lt
  | [], [], _, h1, _ => by simp [listCmp] at h1
  | [], _ :: _, [], _, h2 => by simp [listCmp] at h2
  | [], _ :: _, _ :: _, _, _ => by simp [listCmp]
  | _ :: _, [], _, h1, _ => by simp [listCmp] at h1
  | _ :: _, _ :: _, [], _, h2 => by simp [listCmp] at h2
  | a :: as, b :: bs, c :: cs, h1, h2 => by
    simp only [listCmp] at h1 h2 ⊢
    cases hab : cmp a b with
    | gt => rw [hab] at h1; simp at h1
    | eq =>
      obtain rfl := (hbase_eq a b).mp hab
      rw [hab] at h1
      simp only [] at h1
      cases hbc : cmp a c with
      | eq =>
        rw [hbc] at h2
        obtain rfl := (hbase_eq a c).mp hbc
        exact listCmp_lt_trans hbase_eq hbase_trans as bs cs h1 h2
      | lt => rfl
      | gt => rw [hbc] at h2; simp at h2
    | lt =>
      cases hbc : cmp b c with
      | eq =>
        obtain rfl := (hbase_eq b c).mp hbc
        rw [hab]
      | lt => rw [hbase_trans hab hbc]
      | gt => rw [hbc] at h2; simp at h2

theorem strCmp_eq_iff {a b : String} : strCmp a b = .eq ↔ a = b := by
  unfold strCmp
  rw [listCmp_eq_iff (fun _ _ => charCmp_eq_iff)]
  constructor
  · intro h
    cases a; cases b; simp_all
  · intro h; rw [h]

theorem strCmp_gt_iff {a b : String} : strCmp a b = .gt ↔ strCmp b a = .lt :=
  listCmp_gt_iff (fun _ _ => charCmp_eq_iff) (fun _ _ => charCmp_gt_iff) _ _

theorem strCmp_lt_trans {a b c : String} :
    strCmp a b = .lt → strCmp b c = .lt → strCmp a c = .lt :=
  listCmp_lt_trans (fun _ _ => charCmp_eq_iff) (fun h1 h2 => charCmp_lt_trans h1 h2) _ _ _

theorem symEnc_injective : Function.Injective symEnc := by
  intro a b h
  cases a <;> cases b <;> simp_all [symEnc]

theorem symCmp_eq_iff {a b : Sym} : symCmp a b = .eq ↔ a = b := by
  unfold symCmp
  rw [listCmp_eq_iff (fun _ _ => strCmp_eq_iff)]
  exact ⟨fun h => symEnc_injective h, fun h => by rw [h]⟩

theorem symCmp_gt_iff {a b : Sym} : symCmp a b = .gt ↔ symCmp b a = .lt :=
  listCmp_gt_iff (fun _ _ => strCmp_eq_iff) (fun _ _ => strCmp_gt_iff) _ _

theorem symCmp_lt_trans {a b c : Sym} :
    symCmp a b = .lt → symCmp b c = .lt → symCmp a c = .lt :=
  listCmp_lt_trans (fun _ _ => strCmp_eq_iff) (fun h1 h2 => strCmp_lt_trans h1 h2) _ _ _

theorem monCmp_eq_iff {a b : Mon} : monCmp a b = .eq ↔ a = b := by
  unfold monCmp
  rw [listCmp_eq_iff (fun _ _ => symCmp_eq_iff)]

theorem monCmp_gt_iff {a b : Mon} : monCmp a b = .gt ↔ monCmp b a = .lt :=
  listCmp_gt_iff (fun _ _ => symCmp_eq_iff) (fun _ _ => symCmp_gt_iff) _ _

theorem monCmp_lt_trans {a b c : Mon} :
    monCmp a b = .lt → monCmp b c = .lt → monCmp a c = .lt :=
  listCmp_lt_trans (fun _ _ => symCmp_eq_iff) (fun h1 h2 => symCmp_lt_trans h1 h2) _ _ _

theorem monCmp_refl {a : Mon} : monCmp a a = .eq := monCmp_eq_iff.mpr rfl

theorem monCmp_lt_ne {a b : Mon} (h : monCmp a b = .lt) : a ≠ b := by
  intro hab
  rw [hab, monCmp_refl] at h
  cases h

/-- A non-`gt` comparison (`a ≤ b`) is total. -/
theorem strLe_total (a b : String) :
    strCmp a b ≠ Ordering.gt ∨ strCmp b a ≠ Ordering.gt := by
  cases h : strCmp a b with
  | eq => exact Or.inl (by simp [h])
  | lt => exact Or.inl (by simp [h])
  | gt =>
    refine Or.inr ?_
    rw [strCmp_gt_iff.mp h]
    simp

/-- A non-`gt` comparison (`a ≤ b`) is transitive. -/
theorem strLe_trans {a b c : String} (h1 : strCmp a b ≠ Ordering.gt)
    (h2 : strCmp b c ≠ Ordering.gt) : strCmp a c ≠ Ordering.gt := by
  cases hab : strCmp a b with
  | gt => exact absurd hab h1
  | eq => obtain rfl := strCmp_eq_iff.mp hab; exact h2
  | lt =>
    cases hbc : strCmp b c with
    | gt => exact absurd hbc h2
    | eq => obtain rfl := strCmp_eq_iff.mp hbc; simp [hab]
    | lt => simp [strCmp_lt_trans hab hbc]

theorem nameLe_total (a b : Sym) : nameLe a b ∨ nameLe b a := strLe_total _ _

theorem nameLe_trans {a b c : Sym} (h1 : nameLe a b) (h2 : nameLe b c) : nameLe a c :=
  strLe_trans h1 h2


/-! ## Sorting lemmas (instance-free variants over explicit relations) -/

theorem pairwise_orderedInsert {α : Type} (r : α → α → Prop) [DecidableRel r]
    (htot : ∀ a b, r a b ∨ r b a) (htrans : ∀ {a b c}, r a b → r b c → r a c)
    (a : α) : ∀ {l : List α}, l.Pairwise r → (l.orderedInsert r a).Pairwise r
  | [], _ => by simp [List.orderedInsert]
  | b :: l, h => by
    obtain ⟨hb, hl⟩ := List.pairwise_cons.mp h
    rw [List.orderedInsert]
    split_ifs with hab
    · refine List.pairwise_cons.mpr ⟨?_, h⟩
      intro c hc
      rcases List.mem_cons.mp hc with rfl | hc
      · exact hab
      · exact htrans hab (hb c hc)
    · have hba : r b a := (htot a b).resolve_left hab
      refine List.pairwise_cons.mpr ⟨?_, pairwise_orderedInsert r htot htrans a hl⟩
      intro c hc
      rcases (List.mem_orderedInsert r).mp hc with rfl | hc
      · exact hba
      · exact hb c hc

theorem pairwise_insertionSort {α : Type} (r : α → α → Prop) [DecidableRel r]
    (htot : ∀ a b, r a b ∨ r b a) (htrans : ∀ {a b c}, r a b → r b c → r a c) :
    ∀ l : List α, (l.insertionSort r).Pairwise r
  | [] => by simp [List.insertionSort]
  | a :: l => by
    rw [List.insertionSort]
    exact pairwise_orderedInsert r htot htrans a (pairwise_insertionSort r htot htrans l)

theorem orderedInsert_map {α β : Type} (r : α → α → Prop) (rb : β → β → Prop)
    [DecidableRel r] [DecidableRel rb] (φ : α → β)
    (hφ : ∀ x y, rb (φ x) (φ y) ↔ r x y) (a : α) :
    ∀ l : List α, (l.orderedInsert r a).map φ = (l.map φ).orderedInsert rb (φ a)
  | [] => rfl
  | b :: l => by
    rw [List.orderedInsert, List.map_cons, List.orderedInsert]
    split_ifs with h1 h2 h2
    · rfl
    · exact absurd ((hφ a b).mpr h1) h2
    · exact absurd ((hφ a b).mp h2) h1
    · rw [List.map_cons, orderedInsert_map r rb φ hφ a l]

theorem insertionSort_map {α β : Type} (r : α → α → Prop) (rb : β → β → Prop)
    [DecidableRel r] [DecidableRel rb] (φ : α → β)
    (hφ : ∀ x y, rb (φ x) (φ y) ↔ r x y) :
    ∀ l : List α, (l.insertionSort r).map φ = (l.map φ).insertionSort rb
  | [] => rfl
  | a :: l => by
    rw [List.insertionSort, List.map_cons, List.insertionSort,
      orderedInsert_map r rb φ hφ, insertionSort_map r rb φ hφ l]

/-! ## Expanded-polynomial lemmas -/

theorem coeffOf_polyInsert (m m' : Mon) (c : ℤ) :
    ∀ p : Poly, coeffOf m (polyInsert m' c p) = (if m = m' then c else 0) + coeffOf m p
  | [] => by simp [polyInsert, coeffOf]
  | (m2, c2) :: q => by
    simp only [polyInsert]
    cases h : monCmp m' m2 with
    | lt => simp [coeffOf, add_assoc]
    | gt =>
      simp only [coeffOf, coeffOf_polyInsert m m' c q]
      ring
    | eq =>
      obtain rfl := monCmp_eq_iff.mp h
      show coeffOf m (if c + c2 = 0 then q else (m', c + c2) :: q)
        = (if m = m' then c else 0) + coeffOf m ((m', c2) :: q)
      by_cases hc : c + c2 = 0
      · rw [if_pos hc]
        simp only [coeffOf]
        split_ifs with hm <;> omega
      · rw [if_neg hc]
        simp only [coeffOf]
        split_ifs with hm <;> omega

theorem coeffOf_polyAdd (m : Mon) :
    ∀ p q : Poly, coeffOf m (polyAdd p q) = coeffOf m p + coeffOf m q
  | [], _ => by simp [polyAdd, coeffOf]
  | (m1, c1) :: p, q => by
    have : polyAdd ((m1, c1) :: p) q = polyInsert m1 c1 (polyAdd p q) := rfl
    rw [this, coeffOf_polyInsert, coeffOf_polyAdd m p q]
    simp only [coeffOf]
    ring

theorem coeffOf_polyNeg (m : Mon) : ∀ p : Poly, coeffOf m (polyNeg p) = -coeffOf m p
  | [] => by simp [polyNeg, coeffOf]
  | (m1, c1) :: p => by
    show (if m = m1 then -c1 else 0) + coeffOf m (polyNeg p) = -coeffOf m ((m1, c1) :: p)
    rw [coeffOf_polyNeg m p]
    simp only [coeffOf]
    split_ifs <;> ring

theorem coeffOf_eq_zero_of_forall_lt {m1 : Mon} :
    ∀ {p : Poly}, (∀ x ∈ p, monCmp m1 x.1 = .lt) → coeffOf m1 p = 0
  | [], _ => rfl
  | (m2, c2) :: q, h => by
    have hne : m1 ≠ m2 := monCmp_lt_ne (h (m2, c2) (List.mem_cons_self _ _))
    simp only [coeffOf, if_neg hne, coeffOf_eq_zero_of_forall_lt
      (fun x hx => h x (List.mem_cons_of_mem _ hx))]
    ring

theorem coeffOf_head {m1 : Mon} {c1 : ℤ} {p : Poly}
    (hp : List.Pairwise (fun x y : Mon × ℤ => monCmp x.1 y.1 = .lt) ((m1, c1) :: p)) :
    coeffOf m1 ((m1, c1) :: p) = c1 := by
  obtain ⟨hhead, _⟩ := List.pairwise_cons.mp hp
  show (if m1 = m1 then c1 else 0) + coeffOf m1 p = c1
  rw [if_pos rfl, coeffOf_eq_zero_of_forall_lt hhead]
  ring

theorem mem_mons_of_coeffOf_ne_zero {m : Mon} :
    ∀ {p : Poly}, coeffOf m p ≠ 0 → m ∈ p.map (·.1)
  | [], h => absurd rfl h
  | (m2, c2) :: q, h => by
    by_cases hm : m = m2
    · exact List.mem_map.mpr ⟨(m2, c2), List.mem_cons_self _ _, hm.symm⟩
    · simp only [coeffOf, if_neg hm, zero_add] at h
      exact List.mem_cons_of_mem _ (mem_mons_of_coeffOf_ne_zero h)

theorem normP_ext : ∀ {p q : Poly}, NormP p → NormP q →
    (∀ m, coeffOf m p = coeffOf m q) → p = q
  | [], [], _, _, _ => rfl
  | [], (m2, c2) :: q, _, hq, h => by
    exfalso
    have hc2 : coeffOf m2 ((m2, c2) :: q) = c2 := coeffOf_head hq.1
    have := h m2
    rw [hc2] at this
    exact (hq.2 (m2, c2) (List.mem_cons_self _ _)).1 this.symm
  | (m1, c1) :: p, [], hp, _, h => by
    exfalso
    have hc1 : coeffOf m1 ((m1, c1) :: p) = c1 := coeffOf_head hp.1
    have := h m1
    rw [hc1] at this
    exact (hp.2 (m1, c1) (List.mem_cons_self _ _)).1 this
  | (m1, c1) :: p, (m2, c2) :: q, hp, hq, h => by
    have hc1 : coeffOf m1 ((m1, c1) :: p) = c1 := coeffOf_head hp.1
    have hc2 : coeffOf m2 ((m2, c2) :: q) = c2 := coeffOf_head hq.1
    have hne1 : c1 ≠ 0 := (hp.2 (m1, c1) (List.mem_cons_self _ _)).1
    have hne2 : c2 ≠ 0 := (hq.2 (m2, c2) (List.mem_cons_self _ _)).1
    -- the heads carry the (strictly) smallest monomials, hence they agree
    have hm12 : m1 = m2 := by
      have h1q : coeffOf m1 ((m2, c2) :: q) ≠ 0 := by rw [← h m1, hc1]; exact hne1
      have h1mem : m1 ∈ ((m2, c2) :: q).map (·.1) := mem_mons_of_coeffOf_ne_zero h1q
      have h2p : coeffOf m2 ((m1, c1) :: p) ≠ 0 := by rw [h m2, hc2]; exact hne2
      have h2mem : m2 ∈ ((m1, c1) :: p).map (·.1) := mem_mons_of_coeffOf_ne_zero h2p
      rcases List.mem_map.mp h1mem with ⟨x, hx, hxm⟩
      rcases List.mem_cons.mp hx with rfl | hx
      · exact hxm.symm
      · rcases List.mem_map.mp h2mem with ⟨y, hy, hym⟩
        rcases List.mem_cons.mp hy with rfl | hy
        · exact hym
        · exfalso
          have l1 : monCmp m2 m1 = .lt := by
            rw [← hxm]
            exact (List.pairwise_cons.mp hq.1).1 x hx
          have l2 : monCmp m1 m2 = .lt := by
            rw [← hym]
            exact (List.pairwise_cons.mp hp.1).1 y hy
          have := monCmp_lt_trans l1 l2
          rw [monCmp_refl] at this
          cases this
    subst hm12
    have hcc : c1 = c2 := by
      have := h m1
      rw [hc1, hc2] at this
      exact this
    subst hcc
    have htail : ∀ m, coeffOf m p = coeffOf m q := by
      intro m
      have := h m
      simp only [coeffOf] at this
      omega
    have hps : NormP p := ⟨(List.pairwise_cons.mp hp.1).2,
      fun mc hmc => hp.2 mc (List.mem_cons_of_mem _ hmc)⟩
    have hqs : NormP q := ⟨(List.pairwise_cons.mp hq.1).2,
      fun mc hmc => hq.2 mc (List.mem_cons_of_mem _ hmc)⟩
    rw [normP_ext hps hqs htail]


theorem symLe_trans {a b c : Sym} (h1 : symCmp a b ≠ Ordering.gt)
    (h2 : symCmp b c ≠ Ordering.gt) : symCmp a c ≠ Ordering.gt := by
  cases hab : symCmp a b with
  | gt => exact absurd hab h1
  | eq => obtain rfl := symCmp_eq_iff.mp hab; exact h2
  | lt =>
    cases hbc : symCmp b c with
    | gt => exact absurd hbc h2
    | eq => obtain rfl := symCmp_eq_iff.mp hbc; simp [hab]
    | lt => simp [symCmp_lt_trans hab hbc]

theorem normP_nil : NormP [] :=
  ⟨List.Pairwise.nil, fun mc hmc => absurd hmc (List.not_mem_nil mc)⟩

theorem normP_singleton {m : Mon} {c : ℤ} (hc : c ≠ 0) (hm : MonSorted m) :
    NormP [(m, c)] := by
  constructor
  · exact List.Pairwise.cons (fun x hx => absurd hx (List.not_mem_nil x)) List.Pairwise.nil
  · intro mc hmc
    rw [List.mem_singleton.mp hmc]
    exact ⟨hc, hm⟩

theorem polyInsert_mem {m : Mon} {c : ℤ} :
    ∀ {p : Poly} {x : Mon × ℤ}, x ∈ polyInsert m c p → x.1 = m ∨ x ∈ p
  | [], x, h => by
    simp only [polyInsert, List.mem_singleton] at h
    exact Or.inl (by rw [h])
  | (m2, c2) :: q, x, h => by
    revert h
    show x ∈ (match monCmp m m2 with
      | Ordering.lt => (m, c) :: (m2, c2) :: q
      | Ordering.gt => (m2, c2) :: polyInsert m c q
      | Ordering.eq => if c + c2 = 0 then q else (m, c + c2) :: q) → _
    cases hcmp : monCmp m m2 with
    | lt =>
      intro h
      rcases List.mem_cons.mp h with rfl | h
      · exact Or.inl rfl
      · exact Or.inr h
    | gt =>
      intro h
      rcases List.mem_cons.mp h with rfl | h
      · exact Or.inr (List.mem_cons_self _ _)
      · rcases polyInsert_mem h with h' | h'
        · exact Or.inl h'
        · exact Or.inr (List.mem_cons_of_mem _ h')
    | eq =>
      intro h
      split_ifs at h with hc
      · exact Or.inr (List.mem_cons_of_mem _ h)
      · rcases List.mem_cons.mp h with rfl | h
        · exact Or.inl rfl
        · exact Or.inr (List.mem_cons_of_mem _ h)

theorem normP_polyInsert {m : Mon} {c : ℤ} (hc : c ≠ 0) (hm : MonSorted m) :
    ∀ {p : Poly}, NormP p → NormP (polyInsert m c p)
  | [], _ => normP_singleton hc hm
  | (m2, c2) :: q, hp => by
    have hp2 := hp.2 (m2, c2) (List.mem_cons_self _ _)
    have htail : NormP q := ⟨(List.pairwise_cons.mp hp.1).2,
      fun mc hmc => hp.2 mc (List.mem_cons_of_mem _ hmc)⟩
    have hhead := (List.pairwise_cons.mp hp.1).1
    show NormP (match monCmp m m2 with
      | Ordering.lt => (m, c) :: (m2, c2) :: q
      | Ordering.gt => (m2, c2) :: polyInsert m c q
      | Ordering.eq => if c + c2 = 0 then q else (m, c + c2) :: q)
    cases hcmp : monCmp m m2 with
    | lt =>
      constructor
      · refine List.pairwise_cons.mpr ⟨?_, hp.1⟩
        intro x hx
        rcases List.mem_cons.mp hx with rfl | hx
        · exact hcmp
        · exact monCmp_lt_trans hcmp (hhead x hx)
      · intro mc hmc
        rcases List.mem_cons.mp hmc with rfl | hmc
        · exact ⟨hc, hm⟩
        · exact hp.2 mc hmc
    | gt =>
      have hrec : NormP (polyInsert m c q) := normP_polyInsert hc hm htail
      constructor
      · refine List.pairwise_cons.mpr ⟨?_, hrec.1⟩
        intro x hx
        rcases polyInsert_mem hx with h' | h'
        · rw [h']
          exact monCmp_gt_iff.mp hcmp
        · exact hhead x h'
      · intro mc hmc
        rcases List.mem_cons.mp hmc with rfl | hmc
        · exact hp2
        · exact hrec.2 mc hmc
    | eq =>
      obtain rfl := monCmp_eq_iff.mp hcmp
      split_ifs with hcc
      · exact htail
      · constructor
        · exact List.pairwise_cons.mpr ⟨hhead, htail.1⟩
        · intro mc hmc
          rcases List.mem_cons.mp hmc with rfl | hmc
          · exact ⟨hcc, hm⟩
          · exact htail.2 mc hmc

/-- Entry well-formedness (the part of `NormP` not about the order). -/
def GoodEntries (p : Poly) : Prop := ∀ mc ∈ p, mc.2 ≠ 0 ∧ MonSorted mc.1

theorem normP_polyAdd : ∀ {p q : Poly}, GoodEntries p → NormP q → NormP (polyAdd p q)
  | [], _, _, hq => hq
  | (m1, c1) :: p, q, hent, hq => by
    have h1 := hent (m1, c1) (List.mem_cons_self _ _)
    show NormP (polyInsert m1 c1 (polyAdd p q))
    exact normP_polyInsert h1.1 h1.2
      (normP_polyAdd (fun mc hmc => hent mc (List.mem_cons_of_mem _ hmc)) hq)

theorem mem_monInsert {s : Sym} :
    ∀ {l : Mon} {x : Sym}, x ∈ monInsert s l → x = s ∨ x ∈ l
  | [], x, h => by
    simp only [monInsert, List.mem_singleton] at h
    exact Or.inl h
  | b :: r, x, h => by
    revert h
    show x ∈ (match symCmp s b with
      | Ordering.gt => b :: monInsert s r
      | _ => s :: b :: r) → _
    cases hcmp : symCmp s b with
    | gt =>
      intro h
      rcases List.mem_cons.mp h with rfl | h
      · exact Or.inr (List.mem_cons_self _ _)
      · rcases mem_monInsert h with h' | h'
        · exact Or.inl h'
        · exact Or.inr (List.mem_cons_of_mem _ h')
    | lt =>
      intro h
      rcases List.mem_cons.mp h with rfl | h
      · exact Or.inl rfl
      · exact Or.inr h
    | eq =>
      intro h
      rcases List.mem_cons.mp h with rfl | h
      · exact Or.inl rfl
      · exact Or.inr h

theorem monSorted_monInsert {s : Sym} : ∀ {l : Mon}, MonSorted l → MonSorted (monInsert s l)
  | [], _ => by
    refine List.pairwise_cons.mpr ⟨?_, List.Pairwise.nil⟩
    intro x hx
    cases hx
  | b :: r, h => by
    obtain ⟨hb, hr⟩ := List.pairwise_cons.mp h
    show MonSorted (match symCmp s b with
      | Ordering.gt => b :: monInsert s r
      | _ => s :: b :: r)
    cases hcmp : symCmp s b with
    | gt =>
      refine List.pairwise_cons.mpr ⟨?_, monSorted_monInsert hr⟩
      intro x hx
      rcases mem_monInsert hx with heq | hx
      · rw [heq, symCmp_gt_iff.mp hcmp]
        simp
      · exact hb x hx
    | lt =>
      refine List.pairwise_cons.mpr ⟨?_, h⟩
      intro x hx
      rcases List.mem_cons.mp hx with rfl | hx
      · simp [hcmp]
      · exact symLe_trans (by simp [hcmp]) (hb x hx)
    | eq =>
      refine List.pairwise_cons.mpr ⟨?_, h⟩
      intro x hx
      rcases List.mem_cons.mp hx with rfl | hx
      · simp [hcmp]
      · exact symLe_trans (by simp [hcmp]) (hb x hx)

theorem monSorted_monMul : ∀ {p q : Mon}, MonSorted q → MonSorted (monMul p q)
  | [], _, hq => hq
  | s :: p, q, hq => monSorted_monInsert (monSorted_monMul (p := p) hq)

theorem monMul_nil : ∀ {m : Mon}, MonSorted m → monMul m [] = m
  | [], _ => rfl
  | s :: r, h => by
    obtain ⟨hs, hr⟩ := List.pairwise_cons.mp h
    show monInsert s (monMul r []) = s :: r
    rw [monMul_nil hr]
    cases r with
    | nil => rfl
    | cons b r' =>
      show (match symCmp s b with
        | Ordering.gt => b :: monInsert s r'
        | _ => s :: b :: r') = s :: b :: r'
      cases hcmp : symCmp s b with
      | gt => exact absurd hcmp (hs b (List.mem_cons_self _ _))
      | lt => rfl
      | eq => rfl

theorem normP_polyMulTerm {m : Mon} {c : ℤ} (hm : MonSorted m) (hc : c ≠ 0) :
    ∀ {q : Poly}, GoodEntries q → NormP (polyMulTerm m c q)
  | [], _ => normP_nil
  | (m2, c2) :: q, hq => by
    have h2 := hq (m2, c2) (List.mem_cons_self _ _)
    show NormP (polyInsert (monMul m m2) (c * c2) (polyMulTerm m c q))
    exact normP_polyInsert (mul_ne_zero hc h2.1) (monSorted_monMul h2.2)
      (normP_polyMulTerm hm hc fun mc hmc => hq mc (List.mem_cons_of_mem _ hmc))

theorem normP_polyMul : ∀ {p q : Poly}, GoodEntries p → GoodEntries q → NormP (polyMul p q)
  | [], _, _, _ => normP_nil
  | (m1, c1) :: p, q, hp, hq => by
    have h1 := hp (m1, c1) (List.mem_cons_self _ _)
    show NormP (polyAdd (polyMulTerm m1 c1 q) (polyMul p q))
    exact normP_polyAdd (normP_polyMulTerm h1.2 h1.1 hq).2
      (normP_polyMul (fun mc hmc => hp mc (List.mem_cons_of_mem _ hmc)) hq)

theorem normP_polyPow {p : Poly} (hp : GoodEntries p) : ∀ n : ℕ, NormP (polyPow p n)
  | 0 => normP_singleton one_ne_zero List.Pairwise.nil
  | n + 1 => normP_polyMul hp (normP_polyPow hp n).2

theorem expand_norm : ∀ e : Expr, NormP (expand e)
  | .const q => by
    show NormP (if q = 0 then [] else [([], q)])
    split_ifs with h
    · exact normP_nil
    · exact normP_singleton h List.Pairwise.nil
  | .sym s =>
    normP_singleton one_ne_zero
      (List.Pairwise.cons (fun x hx => absurd hx (List.not_mem_nil x)) List.Pairwise.nil)
  | .add a b => normP_polyAdd (expand_norm a).2 (expand_norm b)
  | .mul a b => normP_polyMul (expand_norm a).2 (expand_norm b).2
  | .pow a n => normP_polyPow (expand_norm a).2 n
  | .fapp _ _ => normP_singleton one_ne_zero List.Pairwise.nil
  | .deriv _ _ _ => normP_singleton one_ne_zero List.Pairwise.nil

theorem normP_polyNeg {p : Poly} (hp : NormP p) : NormP (polyNeg p) := by
  constructor
  · unfold polyNeg
    rw [List.pairwise_map]
    exact hp.1
  · intro mc hmc
    unfold polyNeg at hmc
    rcases List.mem_map.mp hmc with ⟨x, hx, rfl⟩
    exact ⟨neg_ne_zero.mpr (hp.2 x hx).1, (hp.2 x hx).2⟩

theorem polyAdd_polyNeg_eq_nil_iff {p q : Poly} (hp : NormP p) (hq : NormP q) :
    polyAdd p (polyNeg q) = [] ↔ p = q := by
  constructor
  · intro h
    refine normP_ext hp hq fun m => ?_
    have hcoef := congrArg (coeffOf m) h
    rw [coeffOf_polyAdd, coeffOf_polyNeg] at hcoef
    simp only [coeffOf] at hcoef
    omega
  · rintro rfl
    have hzero : NormP (polyAdd p (polyNeg p)) := normP_polyAdd hp.2 (normP_polyNeg hp)
    refine normP_ext hzero normP_nil fun m => ?_
    rw [coeffOf_polyAdd, coeffOf_polyNeg]
    simp only [coeffOf]
    ring

theorem polyMul_negOne : ∀ {p : Poly}, NormP p → polyMul p [([], -1)] = polyNeg p
  | [], _ => rfl
  | (m1, c1) :: p, hp => by
    have h1 := hp.2 (m1, c1) (List.mem_cons_self _ _)
    have htail : NormP p := ⟨(List.pairwise_cons.mp hp.1).2,
      fun mc hmc => hp.2 mc (List.mem_cons_of_mem _ hmc)⟩
    have hhead := (List.pairwise_cons.mp hp.1).1
    show polyAdd (polyMulTerm m1 c1 [([], -1)]) (polyMul p [([], -1)]) = polyNeg ((m1, c1) :: p)
    rw [polyMul_negOne htail]
    show polyInsert (monMul m1 []) (c1 * -1) (polyNeg p) = polyNeg ((m1, c1) :: p)
    rw [monMul_nil h1.2, show c1 * -1 = -c1 by ring]
    cases p with
    | nil => rfl
    | cons x r =>
      show (match monCmp m1 x.1 with
        | Ordering.lt => (m1, -c1) :: polyNeg (x :: r)
        | Ordering.gt => (x.1, -x.2) :: polyInsert m1 (-c1) (polyNeg r)
        | Ordering.eq =>
          if -c1 + -x.2 = 0 then polyNeg r else (m1, -c1 + -x.2) :: polyNeg r)
        = polyNeg ((m1, c1) :: x :: r)
      rw [hhead x (List.mem_cons_self _ _)]
      rfl

theorem polyNeg_polyNeg (p : Poly) : polyNeg (polyNeg p) = p := by
  unfold polyNeg
  rw [List.map_map]
  have : ((fun mc : Mon × ℤ => (mc.1, -mc.2)) ∘ fun mc : Mon × ℤ => (mc.1, -mc.2))
      = fun mc : Mon × ℤ => (mc.1, mc.2) := by
    funext mc
    simp
  rw [this]
  simp

theorem expand_mul_negOne_twice (e : Expr) :
    expand (.mul (.mul e (.const (-1))) (.const (-1))) = expand e := by
  have hN : expand (Expr.const (-1)) = [([], -1)] := by
    show (if (-1 : ℤ) = 0 then [] else [([], -1)]) = [([], -1)]
    norm_num
  show polyMul (polyMul (expand e) (expand (.const (-1)))) (expand (.const (-1))) = expand e
  rw [hN, polyMul_negOne (expand_norm e),
    polyMul_negOne (normP_polyNeg (expand_norm e)), polyNeg_polyNeg]


/-! ## Model equality and negation (claims C8, C9) -/

theorem keys_eq_iff : ∀ m1 m2 : List (Sym × Expr),
    m1.map (·.1) = m2.map (·.1) ↔
      (m1.length = m2.length ∧ ∀ pp ∈ m1.zip m2, pp.1.1 = pp.2.1)
  | [], [] => by simp
  | [], _ :: _ => by simp
  | _ :: _, [] => by simp
  | a :: m1, b :: m2 => by
    simp only [List.map_cons, List.cons.injEq, List.length_cons, List.zip_cons_cons,
      List.mem_cons, keys_eq_iff m1 m2]
    constructor
    · rintro ⟨hab, hlen, hall⟩
      refine ⟨by omega, ?_⟩
      rintro pp (rfl | hpp)
      · exact hab
      · exact hall pp hpp
    · rintro ⟨hlen, hall⟩
      exact ⟨hall (a, b) (Or.inl rfl), by omega, fun pp hpp => hall pp (Or.inr hpp)⟩

theorem modelEq_eq_true_iff (m1 m2 : List (Sym × Expr)) :
    modelEq m1 m2 = true ↔
      (m1.length = m2.length ∧
        ∀ pp ∈ m1.zip m2, pp.1.1 = pp.2.1 ∧ expand pp.1.2 = expand pp.2.2) := by
  unfold modelEq
  by_cases hlen : m1.length = m2.length
  · simp [hlen, List.all_eq_true]
  · simp [hlen]

/-- Claim C8: `Model.__eq__` holds exactly when the two models have the same
dependent-variable identities (key lists) and, pairwise, the difference of
their expressions reduces to zero; and it is not structural equality of the
expression trees, witnessed by `{y: x*(x+1)} == {y: x*x + x}` on distinct
trees. -/
theorem claim_C8_model_equality_algebraic :
    (∀ m1 m2 : List (Sym × Expr),
      modelEq m1 m2 = true ↔
        (m1.map (·.1) = m2.map (·.1) ∧
          ∀ pp ∈ m1.zip m2, algEquiv pp.1.2 pp.2.2)) ∧
    modelEq [(yV, exprFactored)] [(yV, exprExpanded)] = true ∧
    exprFactored ≠ exprExpanded := by
  refine ⟨?_, by decide, by decide⟩
  intro m1 m2
  rw [modelEq_eq_true_iff]
  constructor
  · rintro ⟨hlen, hall⟩
    refine ⟨(keys_eq_iff m1 m2).mpr ⟨hlen, fun pp hpp => (hall pp hpp).1⟩, fun pp hpp => ?_⟩
    exact (polyAdd_polyNeg_eq_nil_iff (expand_norm _) (expand_norm _)).mpr (hall pp hpp).2
  · rintro ⟨hkeys, hall⟩
    obtain ⟨hlen, hkey⟩ := (keys_eq_iff m1 m2).mp hkeys
    refine ⟨hlen, fun pp hpp => ⟨hkey pp hpp, ?_⟩⟩
    exact (polyAdd_polyNeg_eq_nil_iff (expand_norm _) (expand_norm _)).mp (hall pp hpp)

theorem allzip_negneg :
    ∀ s : List (Sym × Expr),
      (((s.map negComponent).map negComponent).zip s).all
        (fun pp => decide (pp.1.1 = pp.2.1) && decide (expand pp.1.2 = expand pp.2.2)) = true
  | [] => rfl
  | kv :: s => by
    simp only [List.map_cons, List.zip_cons_cons, List.all_cons, Bool.and_eq_true,
      decide_eq_true_eq]
    refine ⟨⟨rfl, ?_⟩, allzip_negneg s⟩
    show expand (.mul (.mul kv.2 (.const (-1))) (.const (-1))) = expand kv.2
    exact expand_mul_negOne_twice kv.2

theorem modelEq_negneg_map (s : List (Sym × Expr)) :
    modelEq ((s.map negComponent).map negComponent) s = true := by
  unfold modelEq
  have hlen : ((s.map negComponent).map negComponent).length = s.length := by simp
  rw [if_neg (by simp [hlen])]
  exact allzip_negneg s

/-- Claim C9: double negation of a model is equal — under the model's own
equality — to the original model: `-(-m) == m` (the negation builds a fresh
dictionary; the input dictionary is a pure value and unchanged). -/
theorem claim_C9_double_negation (d : List (Sym × Expr)) :
    modelEq (negModelDict (negModelDict (sortKV d))) (sortKV d) = true := by
  have htot : ∀ a b : Sym × Expr, nameLe a.1 b.1 ∨ nameLe b.1 a.1 :=
    fun a b => nameLe_total a.1 b.1
  have htrans : ∀ {a b c : Sym × Expr}, nameLe a.1 b.1 → nameLe b.1 c.1 → nameLe a.1 c.1 :=
    fun h1 h2 => nameLe_trans h1 h2
  have hcomm : ∀ l : List (Sym × Expr),
      sortKV (l.map negComponent) = (sortKV l).map negComponent := by
    intro l
    unfold sortKV
    rw [insertionSort_map (fun a b : Sym × Expr => nameLe a.1 b.1)
      (fun a b : Sym × Expr => nameLe a.1 b.1) negComponent (fun x y => Iff.rfl) l]
  have hs : (sortKV d).Pairwise (fun a b : Sym × Expr => nameLe a.1 b.1) :=
    pairwise_insertionSort _ htot htrans d
  have hidem : sortKV (sortKV d) = sortKV d := List.Sorted.insertionSort_eq hs
  have h1 : negModelDict (sortKV d) = (sortKV d).map negComponent := by
    unfold negModelDict
    rw [hcomm, hidem]
  have hs2 : ((sortKV d).map negComponent).Pairwise (fun a b : Sym × Expr => nameLe a.1 b.1) := by
    rw [List.pairwise_map]
    exact hs
  have h2 : negModelDict ((sortKV d).map negComponent)
      = ((sortKV d).map negComponent).map negComponent := by
    unfold negModelDict
    rw [hcomm, hcomm, hidem]
  rw [h1, h2]
  exact modelEq_negneg_map (sortKV d)


/-! ## The chain rule through the Jacobian pipeline (claim C1) -/

/-- Claim C1: for the model `{y: a*x, z: y**2 + a}`, the Jacobian built by
`jacobian_from_model` and evaluated through `eval_components` applies the
chain rule through the interdependent variable `y`: at every numeric input
`x = X` and parameter value `a = A`, the evaluated `∂z/∂a` equals
`2*y*x + 1` with `y = a*x`; in particular it is not the identical zero the
naive repeated substitution would produce. -/
theorem claim_C1_chain_rule_jacobian :
    (∀ X A : ℤ, evalJacobianEntry chainSpec "z" "a" [X, A]
      = some (2 * (A * X) * X + 1)) ∧
    evalJacobianEntry chainSpec "z" "a" [1, 1] ≠ some 0 :=
  ⟨fun _ _ => rfl, by decide⟩

/-! ## Topological evaluation of multi-stage compositions (claim C2) -/

/-- Claim C2: for a two-stage model `{y: f(x), z: g(y)}` (any component
expressions `f` over `x` and `g` over `y`), construction succeeds, calling
the model computes `y = f(X)` numerically and feeds that computed value
into `g`, returning `z = g(f(X))`; and a symbol value already supplied in
the keyword dictionary is used as-is by the evaluation loop instead of
being recomputed (`y` stays `W` and `z = g(W)`). -/
theorem claim_C2_topological_evaluation (ef eg : Expr) (X FX GFX W GW : ℤ)
    (hf : (freeSyms ef).dedup = [xV]) (hg : (freeSyms eg).dedup = [yV])
    (hef : evalExpr [("x", X)] ef = some FX)
    (heg : evalExpr [("y", FX)] eg = some GFX)
    (hegW : evalExpr [("y", W)] eg = some GW) :
    ∃ m, initFromDict [(yV, ef), (zV, eg)] = .ok m ∧
      modelCall m [X] [] = .ok [(yV, FX), (zV, GFX)] ∧
      evalLoop m.connectivity m.model_dict (ordered_symbols m.layers) [("x", X), ("y", W)]
        = some [("x", X), ("y", W), ("z", GW)] := by
  have hconn : connectivity_mapping (sortKV [(yV, ef), (zV, eg)])
      = [(yV, [xV]), (zV, [yV])] := by
    show [(yV, (freeSyms ef).dedup), (zV, (freeSyms eg).dedup)] = _
    rw [hf, hg]
  refine ⟨⟨[(yV, ef), (zV, eg)], [(yV, [xV]), (zV, [yV])],
    [[xV], [yV], [zV]], [zV], [yV], [], [xV]⟩, ?_, ?_, ?_⟩
  · simp only [initFromDict, hconn]
    rfl
  · have st1 : evalLoop [(yV, [xV]), (zV, [yV])] [(yV, ef), (zV, eg)] [xV, yV, zV] [("x", X)]
        = match evalExpr [("x", X)] ef with
          | some val => evalLoop [(yV, [xV]), (zV, [yV])] [(yV, ef), (zV, eg)] [zV]
              [("x", X), ("y", val)]
          | none => none := rfl
    rw [hef] at st1
    have st2 : evalLoop [(yV, [xV]), (zV, [yV])] [(yV, ef), (zV, eg)] [zV] [("x", X), ("y", FX)]
        = match evalExpr [("y", FX)] eg with
          | some val => some [("x", X), ("y", FX), ("z", val)]
          | none => none := rfl
    rw [heg] at st2
    have hloop : evalLoop [(yV, [xV]), (zV, [yV])] [(yV, ef), (zV, eg)] [xV, yV, zV] [("x", X)]
        = some [("x", X), ("y", FX), ("z", GFX)] := st1.trans st2
    simp only [modelCall]
    rw [show bindArgs (makeSignature ⟨[(yV, ef), (zV, eg)], [(yV, [xV]), (zV, [yV])],
      [[xV], [yV], [zV]], [zV], [yV], [], [xV]⟩) [X] [] = Except.ok [("x", X)] from rfl]
    simp only [ordered_symbols]
    norm_num [hloop]
    rfl
  · have st1 : evalLoop [(yV, [xV]), (zV, [yV])] [(yV, ef), (zV, eg)] [xV, yV, zV]
        [("x", X), ("y", W)]
        = match evalExpr [("y", W)] eg with
          | some val => some [("x", X), ("y", W), ("z", val)]
          | none => none := rfl
    rw [hegW] at st1
    exact st1

/-- Witness for claim C2 at the concrete components `f(x) = x*x + 1` and
`g(y) = y*y` with `x = 2` supplied and `y = 7` pre-supplied. -/
theorem claim_C2_topological_evaluation_witness :
    ∃ m, initFromDict [(yV, .add (.mul (.sym xV) (.sym xV)) (.const 1)),
        (zV, .mul (.sym yV) (.sym yV))] = .ok m ∧
      modelCall m [2] [] = .ok [(yV, 5), (zV, 25)] ∧
      evalLoop m.connectivity m.model_dict (ordered_symbols m.layers) [("x", 2), ("y", 7)]
        = some [("x", 2), ("y", 7), ("z", 49)] :=
  claim_C2_topological_evaluation (.add (.mul (.sym xV) (.sym xV)) (.const 1))
    (.mul (.sym yV) (.sym yV)) 2 5 25 7 49 (by decide) (by decide) (by rfl) (by rfl) (by rfl)


/-! ## Call-signature binding (claim C7) -/

theorem bindArgs_error_of_unknown {sig : List SigParam} {args : List ℤ}
    {kwargs : List (String × ℤ)}
    (h : ∃ kv ∈ kwargs, kv.1 ∉ sig.map (·.name)) :
    ∃ e, bindArgs sig args kwargs = .error e := by
  simp only [bindArgs]
  split_ifs with h1 h2 h3 h4
  · exact ⟨_, rfl⟩
  · exact ⟨_, rfl⟩
  · exact ⟨_, rfl⟩
  · exact ⟨_, rfl⟩
  · exfalso
    obtain ⟨kv, hkv, hno⟩ := h
    exact h2 (List.any_eq_true.mpr ⟨kv, hkv, by simpa using hno⟩)

theorem bindArgs_error_of_missing {sig : List SigParam} {args : List ℤ}
    {kwargs : List (String × ℤ)}
    (h : ∃ sp ∈ sig, sp.default = none ∧
      sp.name ∉ (((sig.zip args).map fun pa => (pa.1.name, pa.2)) ++ kwargs).map (·.1)) :
    ∃ e, bindArgs sig args kwargs = .error e := by
  simp only [bindArgs]
  split_ifs with h1 h2 h3 h4
  · exact ⟨_, rfl⟩
  · exact ⟨_, rfl⟩
  · exact ⟨_, rfl⟩
  · exact ⟨_, rfl⟩
  · exfalso
    obtain ⟨sp, hsp, hdef, hno⟩ := h
    refine h4 (List.any_eq_true.mpr ⟨sp, hsp, ?_⟩)
    simp only [decide_eq_true_eq]
    exact ⟨hdef, by simpa using hno⟩

/-- Claim C7: the call signature built by `_make_signature` lists the
independent variables first and then the parameters, each group sorted
alphabetically by name, with no argument carrying a default (so only
parameters could — vacuously); calling the model with an unknown keyword or
with any required argument left unbound fails with a `BindingError`. -/
theorem claim_C7_signature_binding (spec : List (Sym × Expr)) (m : ModelState)
    (hinit : initFromDict spec = .ok m) :
    makeSignature m = m.independent_vars.map (fun s => ⟨symName s, none⟩)
        ++ m.params.map (fun s => ⟨symName s, none⟩) ∧
    m.independent_vars.Pairwise nameLe ∧
    m.params.Pairwise nameLe ∧
    (∀ sp ∈ makeSignature m, sp.default ≠ none → sp.name ∈ m.params.map symName) ∧
    (∀ args kwargs,
      ((∃ kv ∈ kwargs, kv.1 ∉ (makeSignature m).map (·.name)) ∨
        (∃ sp ∈ makeSignature m, sp.default = none ∧
          sp.name ∉ ((((makeSignature m).zip args).map fun pa => (pa.1.name, pa.2))
            ++ kwargs).map (·.1))) →
      ∃ e, modelCall m args kwargs = .error (.binding e)) := by
  have hsorted : ∀ l : List Sym, (sortSyms l).Pairwise nameLe := fun l =>
    pairwise_insertionSort nameLe nameLe_total (fun h1 h2 => nameLe_trans h1 h2) l
  have hparts : m.independent_vars.Pairwise nameLe ∧ m.params.Pairwise nameLe := by
    simp only [initFromDict] at hinit
    split at hinit
    · cases hinit
    · split at hinit
      · cases hinit
      · split at hinit
        · cases hinit
        · injection hinit with hinit
          rw [← hinit]
          exact ⟨List.Pairwise.filter _ (hsorted _), List.Pairwise.filter _ (hsorted _)⟩
  refine ⟨by unfold makeSignature; rw [List.map_append], hparts.1, hparts.2, ?_, ?_⟩
  · intro sp hsp hdef
    unfold makeSignature at hsp
    rcases List.mem_map.mp hsp with ⟨s, _, rfl⟩
    exact absurd rfl hdef
  · intro args kwargs h
    have hb : ∃ e, bindArgs (makeSignature m) args kwargs = .error e := by
      rcases h with h | h
      · exact bindArgs_error_of_unknown h
      · exact bindArgs_error_of_missing h
    obtain ⟨e, he⟩ := hb
    refine ⟨e, ?_⟩
    unfold modelCall
    rw [he]

/-- Witness for claim C7: the chain-rule model, called once with an unknown
keyword `q` and once with the parameter `a` left unbound. -/
theorem claim_C7_signature_binding_witness :
    ∃ m, initFromDict chainSpec = .ok m ∧
      (∃ e, modelCall m [] [("q", 0)] = .error (.binding e)) ∧
      (∃ e, modelCall m [5] [] = .error (.binding e)) := by
  refine ⟨_, rfl, ?_, ?_⟩
  · exact (claim_C7_signature_binding chainSpec _ rfl).2.2.2.2 [] [("q", 0)]
      (Or.inl ⟨("q", 0), by decide, by decide⟩)
  · exact (claim_C7_signature_binding chainSpec _ rfl).2.2.2.2 [5] []
      (Or.inr ⟨⟨"a", none⟩, by decide, by decide, by decide⟩)


/-! ## Topological-sort soundness (claims C3, C6) -/

theorem kahnF_flatten_perm : ∀ {fuel : ℕ} {pending : List (Sym × List Sym)}
    {placed : List Sym} {layers : List (List Sym)},
    kahnF fuel pending placed = .ok layers →
    List.Perm layers.flatten (pending.map (·.1))
  | 0, _, _, _, h => by cases h
  | _ + 1, [], _, _, h => by
    injection h with h
    rw [← h]
    simp
  | n + 1, kv0 :: pending, placed, layers, h => by
    simp only [kahnF] at h
    split at h
    · cases h
    · split at h
      · cases h
      · rename_i rest heq
        injection h with h
        rw [← h]
        have ih := kahnF_flatten_perm heq
        show List.Perm
          (((kv0 :: pending).filter fun x => x.2.all fun dep => decide (dep ∈ placed)).map (·.1)
            ++ rest.flatten) ((kv0 :: pending).map (·.1))
        refine List.Perm.trans (List.Perm.append_left _ ih) ?_
        rw [← List.map_append]
        exact (List.filter_append_perm _ (kv0 :: pending)).map (·.1)

theorem kahnF_deps : ∀ {fuel : ℕ} {pending : List (Sym × List Sym)}
    {placed : List Sym} {layers : List (List Sym)},
    kahnF fuel pending placed = .ok layers →
    ∀ kv ∈ pending, ∃ pre l post, layers = pre ++ l :: post ∧ kv.1 ∈ l ∧
      ∀ dep ∈ kv.2, dep ∈ placed ∨ dep ∈ pre.flatten
  | 0, _, _, _, h => by cases h
  | _ + 1, [], _, _, _ => fun _ hkv => absurd hkv (List.not_mem_nil _)
  | n + 1, kv0 :: pending, placed, layers, h => by
    simp only [kahnF] at h
    split at h
    · cases h
    · split at h
      · cases h
      · rename_i rest heq
        injection h with h
        rw [← h]
        intro kv hkv
        by_cases hready : (kv.2.all fun dep => decide (dep ∈ placed)) = true
        · refine ⟨[], _, rest, rfl, ?_, ?_⟩
          · exact List.mem_map.mpr ⟨kv, List.mem_filter.mpr ⟨hkv, hready⟩, rfl⟩
          · intro dep hdep
            exact Or.inl (by simpa using List.all_eq_true.mp hready dep hdep)
        · have hkv' : kv ∈ (kv0 :: pending).filter
              (fun x => !x.2.all fun dep => decide (dep ∈ placed)) :=
            List.mem_filter.mpr ⟨hkv, by simpa using hready⟩
          obtain ⟨pre', l, post', hlay, hvl, hdeps⟩ := kahnF_deps heq kv hkv'
          refine ⟨((kv0 :: pending).filter
              fun x => x.2.all fun dep => decide (dep ∈ placed)).map (·.1) :: pre',
            l, post', by rw [hlay, List.cons_append], hvl, ?_⟩
          intro dep hdep
          rcases hdeps dep hdep with hmem | hmem
          · rcases List.mem_append.mp hmem with hmem | hmem
            · exact Or.inl hmem
            · exact Or.inr (List.mem_flatten.mpr ⟨_, List.mem_cons_self _ _, hmem⟩)
          · rcases List.mem_flatten.mp hmem with ⟨b, hb, hdb⟩
            exact Or.inr (List.mem_flatten.mpr ⟨b, List.mem_cons_of_mem _ hb, hdb⟩)

theorem flatten_map_sort_perm : ∀ layers : List (List Sym),
    List.Perm (ordered_symbols layers) layers.flatten
  | [] => List.Perm.refl _
  | l :: rest => by
    show List.Perm (List.insertionSort derivKeyLe l
      ++ (rest.map (List.insertionSort derivKeyLe)).flatten) (l ++ rest.flatten)
    exact List.Perm.append (List.perm_insertionSort _ l) (flatten_map_sort_perm rest)

theorem graphNormalize_keys_nodup {g : List (Sym × List Sym)}
    (h : (g.map (·.1)).Nodup) : ((graphNormalize g).map (·.1)).Nodup := by
  unfold graphNormalize
  rw [List.map_append, List.map_map]
  rw [show ((·.1) ∘ fun s : Sym => (s, ([] : List Sym))) = fun s => s from rfl]
  rw [List.map_id']
  rw [List.nodup_append]
  refine ⟨h, List.Nodup.filter _ (List.nodup_dedup _), ?_⟩
  intro a ha hafilter
  have := (List.mem_filter.mp hafilter).2
  simp only [decide_eq_true_eq] at this
  exact this ha

theorem toposort_ok_nodup {g : List (Sym × List Sym)} {layers : List (List Sym)}
    (hkeys : (g.map (·.1)).Nodup) (h : toposort g = .ok layers) :
    (ordered_symbols layers).Nodup := by
  unfold toposort at h
  exact ((flatten_map_sort_perm layers).trans (kahnF_flatten_perm h)).nodup_iff.mpr
    (graphNormalize_keys_nodup hkeys)

theorem indexOf_append_lt {l1 l2 : List Sym} {d v : Sym} (hd : d ∈ l1) (hv1 : v ∉ l1)
    (hv2 : v ∈ l2) : (l1 ++ l2).indexOf d < (l1 ++ l2).indexOf v := by
  rw [List.indexOf_append_of_mem hd, List.indexOf_append_of_not_mem hv1]
  have h1 := List.indexOf_lt_length.mpr hd
  omega

theorem toposort_index_lt {g : List (Sym × List Sym)} {layers : List (List Sym)}
    (hkeys : (g.map (·.1)).Nodup) (h : toposort g = .ok layers)
    {v : Sym} {deps : List Sym} {d : Sym} (hvdeps : (v, deps) ∈ g) (hd : d ∈ deps) :
    (ordered_symbols layers).indexOf d < (ordered_symbols layers).indexOf v := by
  have hnodup := toposort_ok_nodup hkeys h
  unfold toposort at h
  obtain ⟨pre, l, post, hlay, hvl, hdeps⟩ :=
    kahnF_deps h (v, deps) (List.mem_append_left _ hvdeps)
  have hdpre : d ∈ pre.flatten := by
    rcases hdeps d hd with hfalse | hmem
    · cases hfalse
    · exact hmem
  subst hlay
  have hsplit : ordered_symbols (pre ++ l :: post)
      = (pre.map (List.insertionSort derivKeyLe)).flatten
        ++ (List.insertionSort derivKeyLe l
            ++ ((post.map (List.insertionSort derivKeyLe))).flatten) := by
    unfold ordered_symbols
    rw [List.map_append, List.flatten_append]
    rfl
  rw [hsplit] at hnodup ⊢
  have hvl2 : v ∈ List.insertionSort derivKeyLe l
      ++ ((post.map (List.insertionSort derivKeyLe))).flatten :=
    List.mem_append_left _ ((List.mem_insertionSort _).mpr hvl)
  apply indexOf_append_lt
  · rcases List.mem_flatten.mp hdpre with ⟨b, hb, hdb⟩
    exact List.mem_flatten.mpr ⟨_, List.mem_map_of_mem _ hb, (List.mem_insertionSort _).mpr hdb⟩
  · intro hvmem
    exact (List.nodup_append.mp hnodup).2.2 hvmem hvl2
  · exact hvl2

theorem keys_nodup_unique : ∀ {g : List (Sym × List Sym)}, (g.map (·.1)).Nodup →
    ∀ {s : Sym} {d1 d2 : List Sym}, (s, d1) ∈ g → (s, d2) ∈ g → d1 = d2
  | [], _, _, _, _, h1, _ => absurd h1 (List.not_mem_nil _)
  | kv :: g, h, s, d1, d2, h1, h2 => by
    have hnot := (List.pairwise_cons.mp h).1
    have htail := (List.pairwise_cons.mp h).2
    rcases List.mem_cons.mp h1 with rfl | h1
    · rcases List.mem_cons.mp h2 with heq | h2
      · exact (congrArg Prod.snd heq).symm
      · exfalso
        exact hnot s (List.mem_map.mpr ⟨(s, d2), h2, rfl⟩) rfl
    · rcases List.mem_cons.mp h2 with heq | h2
      · exfalso
        obtain rfl := congrArg Prod.fst heq.symm
        exact hnot kv.1 (List.mem_map.mpr ⟨(kv.1, d1), h1, rfl⟩) rfl
      · exact keys_nodup_unique htail h1 h2

theorem toposort_first_layer {g : List (Sym × List Sym)} {l0 : List Sym}
    {rest : List (List Sym)} (h : toposort g = .ok (l0 :: rest)) :
    ∀ s ∈ l0, ∃ kv ∈ graphNormalize g, kv.1 = s ∧ kv.2 = [] := by
  unfold toposort at h
  intro s hs
  cases hg : graphNormalize g with
  | nil =>
    rw [hg] at h
    injection h with h
    cases h
  | cons kv0 rest0 =>
    rw [hg] at h
    simp only [kahnF] at h
    split at h
    · cases h
    · split at h
      · cases h
      · rename_i rest' heq
        injection h with h
        injection h with h1 h2
        rw [← h1] at hs
        rcases List.mem_map.mp hs with ⟨kv, hkvmem, rfl⟩
        have hfilter := List.mem_filter.mp hkvmem
        refine ⟨kv, ?_, rfl, ?_⟩
        · exact hfilter.1
        have hall := hfilter.2
        cases hkv2 : kv.2 with
        | nil => rfl
        | cons dep deps =>
          exfalso
          rw [hkv2] at hall
          have := List.all_eq_true.mp hall dep (List.mem_cons_self _ _)
          simp at this


theorem initFromDict_ok_inv {spec : List (Sym × Expr)} {m : ModelState}
    (h : initFromDict spec = .ok m) :
    m.model_dict = sortKV spec ∧ m.connectivity = connectivity_mapping (sortKV spec) ∧
      toposort m.connectivity = .ok m.layers := by
  simp only [initFromDict] at h
  split at h
  · cases h
  · rename_i layers htopo
    split at h
    · cases h
    · split at h
      · cases h
      · injection h with h
        rw [← h]
        exact ⟨rfl, rfl, htopo⟩

theorem conn_keys_nodup {spec : List (Sym × Expr)} (hkeys : (spec.map (·.1)).Nodup) :
    ((connectivity_mapping (sortKV spec)).map (·.1)).Nodup := by
  unfold connectivity_mapping
  rw [List.map_map,
    show ((·.1) ∘ fun kv : Sym × Expr => (kv.1, (freeSyms kv.2).dedup))
      = fun kv : Sym × Expr => kv.1 from rfl]
  exact ((List.perm_insertionSort (fun a b : Sym × Expr => nameLe a.1 b.1) spec).map
    (·.1)).nodup_iff.mpr hkeys

/-- Claim C3: for every model specification with distinct keys that
constructs successfully, the topologically ordered symbol list places every
direct dependency strictly before the symbol depending on it
(`indexOf d < indexOf v`), and every symbol of the bottom layer has an
empty dependency set. -/
theorem claim_C3_topological_order (spec : List (Sym × Expr)) (m : ModelState)
    (hkeys : (spec.map (·.1)).Nodup) (hinit : initFromDict spec = .ok m) :
    (∀ v deps, (v, deps) ∈ m.connectivity → ∀ d ∈ deps,
      (ordered_symbols m.layers).indexOf d < (ordered_symbols m.layers).indexOf v) ∧
    (∀ l0 rest, m.layers = l0 :: rest → ∀ s ∈ l0,
      ∃ kv ∈ graphNormalize m.connectivity, kv.1 = s ∧ kv.2 = []) := by
  obtain ⟨hmd, hconn, htopo⟩ := initFromDict_ok_inv hinit
  have hknodup : (m.connectivity.map (·.1)).Nodup := by
    rw [hconn]
    exact conn_keys_nodup hkeys
  refine ⟨?_, ?_⟩
  · intro v deps hv d hd
    exact toposort_index_lt hknodup htopo hv hd
  · intro l0 rest hlay s hs
    refine @toposort_first_layer m.connectivity l0 rest ?_ s hs
    rw [← hlay]
    exact htopo

/-- Witness for claim C3 at the chain-rule model `{y: a*x, z: y**2 + a}`. -/
theorem claim_C3_topological_order_witness :
    ∃ m, initFromDict chainSpec = Except.ok m ∧
      ((∀ v deps, (v, deps) ∈ m.connectivity → ∀ d ∈ deps,
        (ordered_symbols m.layers).indexOf d < (ordered_symbols m.layers).indexOf v) ∧
      (∀ l0 rest, m.layers = l0 :: rest → ∀ s ∈ l0,
        ∃ kv ∈ graphNormalize m.connectivity, kv.1 = s ∧ kv.2 = [])) :=
  ⟨_, rfl, claim_C3_topological_order chainSpec _ (by decide) rfl⟩

/-- Claim C4: constructing the two-independent-variable ODE spec
`{D(y, t): a, D(z, s): b}` succeeds instead of raising `ModelError`: the
guard `if not len(self.independent_vars)` (fit.py line 1338) only fires on
zero independent variables, although the spec demands exactly one. -/
theorem claim_C4_multiple_independent_vars_accepted :
    ∃ st, odeInit twoIndepODE twoIndepInitial = Except.ok st ∧
      st.independent_vars = [Sym.v "s", Sym.v "t"] :=
  ⟨_, rfl, rfl⟩

/-! ## Claim C10: ODE model indexing -/

/-- Scanning an ODE model dictionary whose derivative keys carry pairwise
distinct dependent variables finds exactly the entry looked for. -/
theorem find_entry_of_nodup_bases : ∀ {l : List (DKey × Expr)},
    ((l.map fun kv => kv.1.base).Nodup) → ∀ {kv : DKey × Expr}, kv ∈ l →
      (l.find? fun x => kv.1.base = x.1.base) = some kv
  | [], _, kv, h => absurd h (List.not_mem_nil kv)
  | x :: l, hnd, kv, hmem => by
    have hnd2 := List.nodup_cons.mp hnd
    rcases List.mem_cons.mp hmem with rfl | hmem
    · exact List.find?_cons_of_pos l (by simp)
    · have hne : ¬ (kv.1.base = x.1.base) := by
        intro heq
        apply hnd2.1
        show x.1.base ∈ List.map (fun kv => kv.1.base) l
        rw [← heq]
        exact List.mem_map.mpr ⟨kv, hmem, rfl⟩
      rw [List.find?_cons_of_neg l (by simpa using hne)]
      exact find_entry_of_nodup_bases hnd2.2 hmem

/-- Claim C10: `ODEModel.__getitem__` (fit.py lines 1396–1406) falls
through to Python's `None` for every symbol that is not one of the model's
dependent variables, and — when the derivative keys name pairwise distinct
dependent variables — returns the right-hand side of each dependent
variable's derivative. -/
theorem claim_C10_ode_getitem (md : List (DKey × Expr)) (initial : List (Sym × ℤ))
    (st : ODEState) (hok : odeInit md initial = Except.ok st) :
    (∀ v : Sym, v ∉ st.dependent_vars → odeGetItem st v = none) ∧
    ((md.map fun kv => kv.1.base).Nodup →
      ∀ kv ∈ st.model_dict, odeGetItem st kv.1.base = some kv.2) := by
  simp only [odeInit] at hok
  split at hok
  · exact absurd hok (by simp)
  · injection hok with hst
    subst hst
    have hperm := List.perm_insertionSort
      (fun a b : DKey × Expr => nameLe a.1.base b.1.base) md
    constructor
    · intro v hv
      have hv2 : v ∉ md.map fun kv => kv.1.base := fun h =>
        hv ((List.perm_insertionSort nameLe (md.map fun kv => kv.1.base)).mem_iff.mpr h)
      have hfind : (List.insertionSort (fun a b : DKey × Expr => nameLe a.1.base b.1.base)
          md).find? (fun kv => v = kv.1.base) = none :=
        List.find?_eq_none.mpr fun x hx => by
          have hxmd : x ∈ md := hperm.mem_iff.mp hx
          intro hpx
          have heq : v = x.1.base := of_decide_eq_true hpx
          exact hv2 (by rw [heq]; exact List.mem_map.mpr ⟨x, hxmd, rfl⟩)
      simp only [odeGetItem]
      rw [hfind]
      rfl
    · intro hnd kv hkv
      have hnd2 : ((List.insertionSort (fun a b : DKey × Expr => nameLe a.1.base b.1.base)
          md).map fun kv => kv.1.base).Nodup := (hperm.map _).nodup_iff.mpr hnd
      simp only [odeGetItem]
      rw [find_entry_of_nodup_bases hnd2 hkv]
      rfl

/-- Claim C10 at a concrete model: for the ODE spec `{D(y, x): a}` with
initial map `{x: 0, y: 1}`, indexing with `z` gives `None` and indexing
with `y` gives the right-hand side `a`. -/
theorem claim_C10_ode_getitem_witness :
    ∃ st, odeInit [(⟨yV, [xV]⟩, Expr.sym aP)] [(xV, 0), (yV, 1)] = Except.ok st ∧
      odeGetItem st zV = none ∧ odeGetItem st yV = some (Expr.sym aP) := by
  refine ⟨_, rfl, ?_, ?_⟩
  · exact (claim_C10_ode_getitem [(⟨yV, [xV]⟩, Expr.sym aP)] [(xV, 0), (yV, 1)] _ rfl).1
      zV (by decide)
  · exact (claim_C10_ode_getitem [(⟨yV, [xV]⟩, Expr.sym aP)] [(xV, 0), (yV, 1)] _ rfl).2
      (by decide) (⟨yV, [xV]⟩, Expr.sym aP) (by decide)



/-! ## Claim C5: the ODE time-axis splice -/

/-- In a strictly ascending list containing `c`, filtering `t <= c` is
filtering `t < c` followed by `c` itself. -/
theorem sorted_filter_le_of_mem {c : ℤ} : ∀ {ts : List ℤ}, List.Pairwise (· < ·) ts →
    c ∈ ts → ts.filter (fun t => decide (t ≤ c)) = ts.filter (fun t => decide (t < c)) ++ [c]
  | [], _, hc => absurd hc (List.not_mem_nil c)
  | t :: ts, h, hc => by
    obtain ⟨hhead, htail⟩ := List.pairwise_cons.mp h
    rcases List.mem_cons.mp hc with rfl | hc
    · have h1 : ts.filter (fun x => decide (x ≤ c)) = [] :=
        List.filter_eq_nil_iff.mpr fun x hx => by
          have := hhead x hx
          simp only [decide_eq_true_eq]
          omega
      have h2 : ts.filter (fun x => decide (x < c)) = [] :=
        List.filter_eq_nil_iff.mpr fun x hx => by
          have := hhead x hx
          simp only [decide_eq_true_eq]
          omega
      rw [List.filter_cons_of_pos (by simp), List.filter_cons_of_neg (by simp), h1, h2]
      rfl
    · have htc : t < c := hhead c hc
      rw [List.filter_cons_of_pos (by simp only [decide_eq_true_eq]; omega),
        List.filter_cons_of_pos (by simp only [decide_eq_true_eq]; omega),
        sorted_filter_le_of_mem htail hc]
      rfl

/-- In a strictly ascending list containing `c`, filtering `c <= t` is `c`
followed by the filter of `c < t`. -/
theorem sorted_filter_ge_of_mem {c : ℤ} : ∀ {ts : List ℤ}, List.Pairwise (· < ·) ts →
    c ∈ ts → ts.filter (fun t => decide (c ≤ t)) = c :: ts.filter (fun t => decide (c < t))
  | [], _, hc => absurd hc (List.not_mem_nil c)
  | t :: ts, h, hc => by
    obtain ⟨hhead, htail⟩ := List.pairwise_cons.mp h
    rcases List.mem_cons.mp hc with rfl | hc
    · have h1 : ts.filter (fun x => decide (c ≤ x)) = ts :=
        List.filter_eq_self.mpr fun x hx => by
          have := hhead x hx
          simp only [decide_eq_true_eq]
          omega
      have h2 : ts.filter (fun x => decide (c < x)) = ts :=
        List.filter_eq_self.mpr fun x hx => by
          have := hhead x hx
          simp only [decide_eq_true_eq]
          omega
      rw [List.filter_cons_of_pos (by simp), h1, List.filter_cons_of_neg (by simp), h2]
    · have htc : t < c := hhead c hc
      rw [List.filter_cons_of_neg (by simp only [decide_eq_true_eq]; omega),
        List.filter_cons_of_neg (by simp only [decide_eq_true_eq]; omega),
        sorted_filter_ge_of_mem htail hc]

/-- A strictly ascending list containing `c` is the filter below `c`, then
`c`, then the filter above `c`. -/
theorem sorted_split_of_mem {c : ℤ} : ∀ {ts : List ℤ}, List.Pairwise (· < ·) ts →
    c ∈ ts → ts.filter (fun t => decide (t < c)) ++ c :: ts.filter (fun t => decide (c < t)) = ts
  | [], _, hc => absurd hc (List.not_mem_nil c)
  | t :: ts, h, hc => by
    obtain ⟨hhead, htail⟩ := List.pairwise_cons.mp h
    rcases List.mem_cons.mp hc with rfl | hc
    · have h1 : ts.filter (fun x => decide (x < c)) = [] :=
        List.filter_eq_nil_iff.mpr fun x hx => by
          have := hhead x hx
          simp only [decide_eq_true_eq]
          omega
      have h2 : ts.filter (fun x => decide (c < x)) = ts :=
        List.filter_eq_self.mpr fun x hx => by
          have := hhead x hx
          simp only [decide_eq_true_eq]
          omega
      rw [List.filter_cons_of_neg (by simp), h1, List.filter_cons_of_neg (by simp), h2]
      rfl
    · have htc : t < c := hhead c hc
      rw [List.filter_cons_of_pos (by simp only [decide_eq_true_eq]; omega),
        List.filter_cons_of_neg (by simp only [decide_eq_true_eq]; omega),
        List.cons_append, sorted_split_of_mem htail hc]

/-- A strictly ascending list avoiding `c` is the filter below `c`
followed by the filter above `c`. -/
theorem sorted_split_of_not_mem {c : ℤ} : ∀ {ts : List ℤ}, List.Pairwise (· < ·) ts →
    c ∉ ts → ts.filter (fun t => decide (t < c)) ++ ts.filter (fun t => decide (c < t)) = ts
  | [], _, _ => rfl
  | t :: ts, h, hc => by
    obtain ⟨hhead, htail⟩ := List.pairwise_cons.mp h
    have hct : ¬ c = t := fun e => hc (by rw [e]; exact List.mem_cons_self t ts)
    have hcts : c ∉ ts := fun m => hc (List.mem_cons_of_mem t m)
    rcases lt_trichotomy t c with htc | heq | htc
    · rw [List.filter_cons_of_pos (by simp only [decide_eq_true_eq]; omega),
        List.filter_cons_of_neg (by simp only [decide_eq_true_eq]; omega),
        List.cons_append, sorted_split_of_not_mem htail hcts]
    · exact absurd heq.symm hct
    · have h3 : ts.filter (fun x => decide (x < c)) = [] :=
        List.filter_eq_nil_iff.mpr fun x hx => by
          have := hhead x hx
          simp only [decide_eq_true_eq]
          omega
      have h4 : ts.filter (fun x => decide (c < x)) = ts :=
        List.filter_eq_self.mpr fun x hx => by
          have := hhead x hx
          simp only [decide_eq_true_eq]
          omega
      rw [List.filter_cons_of_neg (by simp only [decide_eq_true_eq]; omega),
        List.filter_cons_of_pos (by simp only [decide_eq_true_eq]; omega), h3, h4]
      rfl

/-- The modelled integrator started at the initial time `0` with state `1`
returns the exact trajectory `1 + a*t`. -/
theorem odeintLinear_zero (a : ℤ) (l : List ℤ) :
    odeintLinear a 1 ((0:ℤ) :: l) = (1 : ℤ) :: l.map fun t => 1 + a * t := by
  have hfun : (fun t : ℤ => 1 + a * (t - 0)) = fun t => 1 + a * t := by
    funext t
    ring
  show ((0:ℤ) :: l).map (fun t => 1 + a * (t - 0)) = (1:ℤ) :: l.map fun t => 1 + a * t
  rw [List.map_cons, hfun]
  norm_num

/-- Filtering the mask rows of a zipped trajectory whose time points all
avoid `c` keeps the whole trajectory. -/
theorem zip_map_filter_ne (g : ℤ → ℤ) (c : ℤ) : ∀ (l : List ℤ), (∀ t ∈ l, t ≠ c) →
    ((l.zip (l.map g)).filter fun ty => decide (¬ ty.1 = c)).map (fun ty => ty.2) = l.map g
  | [], _ => rfl
  | t :: l, h => by
    show (((t, g t) :: l.zip (l.map g)).filter fun ty => decide (¬ ty.1 = c)).map
      (fun ty => ty.2) = g t :: l.map g
    rw [List.filter_cons_of_pos (by simpa using h t (List.mem_cons_self t l)), List.map_cons]
    rw [zip_map_filter_ne g c l fun x hx => h x (List.mem_cons_of_mem t hx)]

/-- Splicing the two integration branches and masking away the injected
initial row `(0, g0)` recovers the two branch trajectories. -/
theorem splice_not_mem (g : ℤ → ℤ) (L R : List ℤ) (g0 : ℤ)
    (hL : ∀ t ∈ L, t ≠ (0:ℤ)) (hR : ∀ t ∈ R, t ≠ (0:ℤ)) :
    (((L ++ (0:ℤ) :: R).zip ((L.map g) ++ g0 :: R.map g)).filter
      fun ty => decide (¬ ty.1 = (0:ℤ))).map (fun ty => ty.2) = L.map g ++ R.map g := by
  rw [List.zip_append (by rw [List.length_map])]
  show ((L.zip (L.map g) ++ ((0:ℤ), g0) :: R.zip (R.map g)).filter
    fun ty => decide (¬ ty.1 = (0:ℤ))).map (fun ty => ty.2) = L.map g ++ R.map g
  rw [List.filter_append, List.filter_cons_of_neg (by simp), List.map_append]
  rw [zip_map_filter_ne g 0 L hL, zip_map_filter_ne g 0 R hR]

/-- Claim C5 (amended): for `dy/dx = a` with `y(0) = 1` and a strictly
ascending vector of requested time points, `ODEModel.eval_components`
returns `1 + a*x` elementwise — one entry per request, in request order,
with the initial time in the output iff it was requested.  (The
counterexample shows the original claim fails for some non-ascending and
duplicated request vectors.) -/
theorem claim_C5_ode_round_trip (a : ℤ) (ts : List ℤ)
    (hsort : List.Pairwise (· < ·) ts) :
    odeEvalComponents a 0 1 ts = ts.map fun t => 1 + a * t := by
  have hneg : ∀ t ∈ ts.filter (fun t => decide (t < (0:ℤ))), t < (0:ℤ) := fun t ht => by
    simpa using (List.mem_filter.mp ht).2
  have hpos : ∀ t ∈ ts.filter (fun t => decide ((0:ℤ) < t)), (0:ℤ) < t := fun t ht => by
    simpa using (List.mem_filter.mp ht).2
  by_cases hmem : (0:ℤ) ∈ ts
  · simp only [odeEvalComponents, hmem, if_true]
    rw [sorted_filter_le_of_mem hsort hmem, sorted_filter_ge_of_mem hsort hmem,
      List.reverse_append]
    show ((odeintLinear a 1 ((0:ℤ) :: (ts.filter fun t => decide (t < 0)).reverse)).drop
        1).reverse ++ odeintLinear a 1 ((0:ℤ) :: ts.filter fun t => decide ((0:ℤ) < t)) =
      ts.map fun t => 1 + a * t
    rw [odeintLinear_zero, odeintLinear_zero]
    show ((ts.filter fun t => decide (t < 0)).reverse.map fun t => 1 + a * t).reverse ++
      ((1:ℤ) :: (ts.filter fun t => decide ((0:ℤ) < t)).map fun t => 1 + a * t) =
      ts.map fun t => 1 + a * t
    rw [List.map_reverse, List.reverse_reverse]
    have hone : ((1:ℤ) :: (ts.filter fun t => decide ((0:ℤ) < t)).map fun t => 1 + a * t) =
        ((0:ℤ) :: ts.filter fun t => decide ((0:ℤ) < t)).map fun t => 1 + a * t := by
      rw [List.map_cons]
      norm_num
    rw [hone, ← List.map_append, sorted_split_of_mem hsort hmem]
  · simp only [odeEvalComponents, hmem, if_false]
    have ht : (((0:ℤ) :: (ts.filter fun t => decide (t < 0)).reverse).reverse).dropLast =
        ts.filter fun t => decide (t < 0) := by
      rw [List.reverse_cons, List.reverse_reverse, List.dropLast_concat]
    have ha : ((odeintLinear a 1
        ((0:ℤ) :: (ts.filter fun t => decide (t < 0)).reverse)).drop 1).reverse =
        (ts.filter fun t => decide (t < 0)).map fun t => 1 + a * t := by
      rw [odeintLinear_zero]
      show ((ts.filter fun t => decide (t < 0)).reverse.map fun t => 1 + a * t).reverse =
        (ts.filter fun t => decide (t < 0)).map fun t => 1 + a * t
      rw [List.map_reverse, List.reverse_reverse]
    rw [ht, ha, odeintLinear_zero]
    rw [splice_not_mem (fun t => 1 + a * t) (ts.filter fun t => decide (t < 0))
      (ts.filter fun t => decide ((0:ℤ) < t)) 1
      (fun t htf => ne_of_lt (hneg t htf)) (fun t htf => (hpos t htf).ne.symm)]
    rw [← List.map_append, sorted_split_of_not_mem hsort hmem]

/-- Claim C5 counterexample: at the request vector `[1, -1]` the
trajectory of `dy/dx = 1`, `y(0) = 1` comes back in ascending time order
`[0, 2]`, not in the requested order `[2, 0]`; and the duplicated request
`[0, 0]` yields three output entries, not two. -/
theorem claim_C5_counterexample :
    odeEvalComponents 1 0 1 [1, -1] = [1 + 1 * (-1), 1 + 1 * 1] ∧
    odeEvalComponents 1 0 1 [1, -1] ≠ [1 + 1 * 1, 1 + 1 * (-1)] ∧
    (odeEvalComponents 1 0 1 [0, 0]).length = 3 := by
  decide

/-- Claim C5 at the spec's sample: `dy/dx = 3`, `y(0) = 1` at
`x = [-2, -1, 0, 1, 2]` is `1 + 3*x` elementwise. -/
theorem claim_C5_ode_round_trip_witness :
    odeEvalComponents 3 0 1 [-2, -1, 0, 1, 2] =
      [-2, -1, 0, 1, 2].map (fun t => 1 + 3 * t) :=
  claim_C5_ode_round_trip 3 [-2, -1, 0, 1, 2] (by decide)


end Symfit
